import Mathlib

set_option maxRecDepth 16000

/-! # Shallow embedding of the `my-ip` report-formatting core

The source is an Express server.  This file embeds the report-formatting
core: the field/section configuration registry (`FIELD_CONFIG`,
`SECTION_CONFIG`), the multi-strategy pattern waterfall
(`extractFieldValue`), the free-text section extractors
(`extractIncidentInformation`, `extractActionRecommendation`), the filter
pipeline (`applyFieldFilters`), and the two HTTP handlers
(`POST /api/format-report` and `POST /api/format-report/config`).

JavaScript strings are modelled as `List Char`.  JS regular expressions are
modelled by an executable backtracking matcher (`mtch`) over a small regex
AST (`RE`) covering exactly the constructs used by the source patterns,
with JS semantics: leftmost match, alternation tried left to right, greedy
quantifiers longest-first, lazy quantifiers shortest-first, lookahead
without consumption, `m`-flag anchors, and `i`-flag case-insensitivity
(modelled on the ASCII letters, which covers all keyword/marker text the
source interpolates into its patterns; keywords are interpolated verbatim
by the source and are modelled as literal character sequences). -/

/-- JS whitespace class `\s` (the ASCII part plus NBSP, BOM and the
line/paragraph separators); this is also the class removed by
`String.prototype.trim`. -/
def jsWs (c : Char) : Bool :=
  c == ' ' || c == '\t' || c == '\n' || c == '\r' || c == '\x0b' || c == '\x0c' ||
  c == '\u00A0' || c == '\uFEFF' || c == '\u2028' || c == '\u2029'

/-- JS line terminators (what `.` does not match, and where a multiline `^`/`$`
anchors). -/
def isNL (c : Char) : Bool :=
  c == '\n' || c == '\r' || c == '\u2028' || c == '\u2029'

/-- ASCII lower-casing, the effect of the JS `i` regex flag and of
`String.prototype.toLowerCase` on the ASCII letters used by the source. -/
def asciiLower (c : Char) : Char :=
  if 'A' ≤ c ∧ c ≤ 'Z' then Char.ofNat (c.toNat + 32) else c

/-- Character comparison used by the matcher: literal when `ci = false`,
ASCII case-insensitive when `ci = true` (JS `i` flag). -/
def ciEq (ci : Bool) (p c : Char) : Bool :=
  if ci then asciiLower p == asciiLower c else p == c

/-- JS `String.prototype.trim` on a character list. -/
def jsTrimL (l : List Char) : List Char :=
  ((l.dropWhile jsWs).reverse.dropWhile jsWs).reverse

/-- JS `String.prototype.trimEnd` on a character list. -/
def jsTrimEndL (l : List Char) : List Char :=
  (l.reverse.dropWhile jsWs).reverse

/-- Regex AST.  Quantifiers only ever apply to single-character classes in the
source's patterns, which keeps the backtracking matcher structurally
recursive. -/
inductive RE where
  | eps
  /-- a literal character (`ci`: `i` flag in force) -/
  | lit (ci : Bool) (c : Char)
  /-- a single-character class such as `\s`, `.`, `[^\n*]` -/
  | cls (p : Char → Bool)
  /-- greedy `X*` over a class -/
  | starG (p : Char → Bool)
  /-- lazy `X*?` over a class -/
  | starL (p : Char → Bool)
  /-- greedy `X+` over a class -/
  | plusG (p : Char → Bool)
  /-- lazy `X+?` over a class -/
  | plusL (p : Char → Bool)
  /-- greedy `c?` over a literal (used for `\*?`) -/
  | optG (ci : Bool) (c : Char)
  | cat (a b : RE)
  | alt (a b : RE)
  /-- capturing group 1 (each source pattern has at most one) -/
  | grp (r : RE)
  /-- lookahead `(?= r)` -/
  | look (r : RE)
  /-- `^` (`m`: multiline flag in force) -/
  | bol (m : Bool)
  /-- `$` (`m`: multiline flag in force) -/
  | eol (m : Bool)

/-- Matcher state: the remaining input, the character just before it (for
anchors), and the current group-1 capture. -/
structure MSt where
  rest : List Char
  prev : Option Char
  cap : Option (List Char)
deriving DecidableEq

/-- Greedy Kleene star over a character class, in continuation-passing style:
consume as many `p`-characters as possible first, backtracking to shorter
consumptions when the continuation fails. -/
def starGRun (p : Char → Bool) (k : MSt → Option MSt) :
    List Char → Option Char → Option (List Char) → Option MSt
  | [], prev, cap => k ⟨[], prev, cap⟩
  | c :: tl, prev, cap =>
    if p c then (starGRun p k tl (some c) cap) <|> k ⟨c :: tl, prev, cap⟩
    else k ⟨c :: tl, prev, cap⟩

/-- Lazy Kleene star over a character class: try the continuation first,
consuming further characters only on failure. -/
def starLRun (p : Char → Bool) (k : MSt → Option MSt) :
    List Char → Option Char → Option (List Char) → Option MSt
  | [], prev, cap => k ⟨[], prev, cap⟩
  | c :: tl, prev, cap =>
    k ⟨c :: tl, prev, cap⟩ <|> (if p c then starLRun p k tl (some c) cap else none)

/-- The backtracking matcher.  `mtch r st k` attempts to match `r` at the
start of `st.rest` and passes the state after the match to `k`; `none`
propagates failure, which drives backtracking exactly as a JS regex engine
explores alternatives (leftmost-biased alternation, greedy/lazy
quantifiers). -/
def mtch : RE → MSt → (MSt → Option MSt) → Option MSt
  | .eps, st, k => k st
  | .lit ci c, st, k =>
    match st.rest with
    | [] => none
    | d :: tl => if ciEq ci c d then k ⟨tl, some d, st.cap⟩ else none
  | .cls p, st, k =>
    match st.rest with
    | [] => none
    | d :: tl => if p d then k ⟨tl, some d, st.cap⟩ else none
  | .starG p, st, k => starGRun p k st.rest st.prev st.cap
  | .starL p, st, k => starLRun p k st.rest st.prev st.cap
  | .plusG p, st, k =>
    match st.rest with
    | [] => none
    | d :: tl => if p d then starGRun p k tl (some d) st.cap else none
  | .plusL p, st, k =>
    match st.rest with
    | [] => none
    | d :: tl => if p d then starLRun p k tl (some d) st.cap else none
  | .optG ci c, st, k =>
    (match st.rest with
     | d :: tl => if ciEq ci c d then k ⟨tl, some d, st.cap⟩ else none
     | [] => none) <|> k st
  | .cat a b, st, k => mtch a st (fun st' => mtch b st' k)
  | .alt a b, st, k => (mtch a st k) <|> (mtch b st k)
  | .grp r, st, k =>
    mtch r st (fun st2 =>
      k ⟨st2.rest, st2.prev, some (st.rest.take (st.rest.length - st2.rest.length))⟩)
  | .look r, st, k =>
    match mtch r st some with
    | some _ => k st
    | none => none
  | .bol m, st, k =>
    match st.prev with
    | none => k st
    | some c => if m && isNL c then k st else none
  | .eol m, st, k =>
    match st.rest with
    | [] => k st
    | c :: _ => if m && isNL c then k st else none

/-- Leftmost-match search: try the pattern at each start position from left to
right (JS `String.prototype.match` with a non-global regex), returning the
start index and the final matcher state of the first match. -/
def scanFrom (r : RE) : List Char → Option Char → Nat → Option (Nat × MSt)
  | [], prev, i =>
    match mtch r ⟨[], prev, none⟩ some with
    | some res => some (i, res)
    | none => none
  | c :: tl, prev, i =>
    match mtch r ⟨c :: tl, prev, none⟩ some with
    | some res => some (i, res)
    | none => scanFrom r tl (some c) (i + 1)

/-- `text.match(r)` for a non-global `r`: first match, scanning from the
start of the string. -/
def runPat (r : RE) (text : List Char) : Option (Nat × MSt) :=
  scanFrom r text none 0

/-- Group 1 of a match result (`match[1]`; the empty string when the group
did not capture). -/
def grpStr (res : Nat × MSt) : List Char :=
  res.2.cap.getD []

/-- Fuel-driven worker for global replace: each step either copies one
character or replaces one leftmost match and resumes after it.  Every step
strictly shrinks the list, so `fuel = length` (see `replaceGo`) always
suffices; the fuel only makes the recursion structural. -/
def replaceFuel (r : RE) (rep : List Char) : Nat → List Char → Option Char → List Char
  | 0, l, _ => l
  | _ + 1, [], _ => []
  | fuel + 1, c :: tl, prev =>
    match mtch r ⟨c :: tl, prev, none⟩ some with
    | none => c :: replaceFuel r rep fuel tl (some c)
    | some res =>
      if res.rest.length < (c :: tl).length
      then rep ++ replaceFuel r rep fuel res.rest res.prev
      else c :: replaceFuel r rep fuel tl (some c)

/-- JS `String.prototype.replace` with a global regex: repeatedly replace the
leftmost match, resuming the scan after the replaced span.  (The source's
global patterns always consume at least one character, so the
length-guarded branch of `replaceFuel` never falls through for them.) -/
def replaceGo (r : RE) (rep : List Char) (l : List Char) (prev : Option Char) : List Char :=
  replaceFuel r rep l.length l prev

/-- JS `String.prototype.replace` with a non-global regex: replace the first
match only. -/
def replaceOnce (r : RE) (rep : List Char) (text : List Char) : List Char :=
  match runPat r text with
  | none => text
  | some (i, st) => text.take i ++ rep ++ st.rest

/-- A sequence of literal characters (a keyword or marker interpolated
verbatim into a pattern). -/
def litStr (ci : Bool) : List Char → RE
  | [] => .eps
  | c :: cs => .cat (.lit ci c) (litStr ci cs)

example : runPat (litStr true "ab".data) "xAb".data =
    some (1, ⟨[], some 'b', none⟩) := by rfl

example : replaceGo (.cat (.lit false '\n') (.cat (.starG jsWs) (.lit false '\n')))
    ['\n'] "a\n\n\nb".data none = "a\nb".data := by rfl

/-- Right-nested concatenation of a pattern sequence. -/
def cats : List RE → RE := fun l => l.foldr .cat .eps

/-- ASCII letter (the `A-Za-z` ranges of the source's classes). -/
def isAlphaCC (c : Char) : Bool :=
  (65 ≤ c.toNat && c.toNat ≤ 90) || (97 ≤ c.toNat && c.toNat ≤ 122)

/-- The class `[^\t\n]`. -/
def notTabNL (c : Char) : Bool := !(c == '\t' || c == '\n')

/-- The class `[^\n*]`. -/
def notNLStar (c : Char) : Bool := !(c == '\n' || c == '*')

/-- The class `[^*]`. -/
def notStar (c : Char) : Bool := c != '*'

/-- The class `.` (anything but a line terminator). -/
def dotCC (c : Char) : Bool := !(isNL c)

/-- The class `[\s\S]`. -/
def anyCC (_ : Char) : Bool := true

/-- The class `[A-Za-z\s]`. -/
def alphaWsCC (c : Char) : Bool := isAlphaCC c || jsWs c

/-- The class `[A-Za-z ]`. -/
def alphaSpaceCC (c : Char) : Bool := isAlphaCC c || c == ' '

/-- A keyword pattern split as prefix, interpolated keyword, and tail: every
strategy pattern has this shape, which the congruence lemmas exploit. -/
def mkPat (pre : RE) (ci : Bool) (kw : List Char) (post : RE) : RE :=
  .cat pre (.cat (litStr ci kw) post)

/-- The leading emphasis delimiter `\*\*` of the emphasised strategies. -/
def emphPre : RE := cats [.lit true '*', .lit true '*']

/-- Strategy 1 (`tabularPattern`), flags `i`:
``` `${keyword}\s*:\s*([^\t\n]+?)(?=\s*\t[A-Za-z\s]+\s*:|\s*$)` ```. -/
def pat1 (kw : List Char) : RE :=
  mkPat .eps true kw
    (cats [.starG jsWs, .lit true ':', .starG jsWs,
      .grp (.plusL notTabNL),
      .look (.alt
        (cats [.starG jsWs, .lit true '\t', .plusG alphaWsCC, .starG jsWs, .lit true ':'])
        (cats [.starG jsWs, .eol false]))])

/-- Strategy 2 (`sameLineNoClosing`), flags `i`:
``` `\*\*${keyword}\s*:\*\*?\s*([^\n*]+)` ```. -/
def pat2 (kw : List Char) : RE :=
  mkPat emphPre true kw
    (cats [.starG jsWs, .lit true ':',
      .lit true '*', .optG true '*', .starG jsWs, .grp (.plusG notNLStar)])

/-- Strategy 3 (`nextLineNoClosing`), flags `i`:
``` `\*\*${keyword}\s*:\*\*?\s*\n\s*([^\n*]+)` ```. -/
def pat3 (kw : List Char) : RE :=
  mkPat emphPre true kw
    (cats [.starG jsWs, .lit true ':',
      .lit true '*', .optG true '*', .starG jsWs, .lit true '\n', .starG jsWs,
      .grp (.plusG notNLStar)])

/-- Strategy 4 (`boldPattern`), flags `i`:
``` `\*\*${keyword}\s*:\s*\*\*\s*([^\n*]+)` ```. -/
def pat4 (kw : List Char) : RE :=
  mkPat emphPre true kw
    (cats [.starG jsWs, .lit true ':',
      .starG jsWs, .lit true '*', .lit true '*', .starG jsWs, .grp (.plusG notNLStar)])

/-- Strategy 5 (`nextLinePattern`), flags `i`:
``` `\*\*${keyword}\s*:\*\*\s*\n\s*([^\n*]+)` ```. -/
def pat5 (kw : List Char) : RE :=
  mkPat emphPre true kw
    (cats [.starG jsWs, .lit true ':',
      .lit true '*', .lit true '*', .starG jsWs, .lit true '\n', .starG jsWs,
      .grp (.plusG notNLStar)])

/-- Strategy 6 (`simpleLinePattern`), flags `m` (and, notably, not `i`):
``` `^\s*${keyword}\s*:\s*(.+?)\s*$` ```. -/
def pat6 (kw : List Char) : RE :=
  mkPat (cats [.bol true, .starG jsWs]) false kw
    (cats [.starG jsWs, .lit false ':',
      .starG jsWs, .grp (.plusL dotCC), .starG jsWs, .eol true])

/-- Strategy 7 outer pattern (`simplePattern`), flags `m` (not `i`):
``` `${keyword}\s*:(.*)$` ```. -/
def pat7 (kw : List Char) : RE :=
  mkPat .eps false kw
    (cats [.starG jsWs, .lit false ':', .grp (.starG dotCC), .eol true])

/-- Strategy 7 inner pattern (`genericPattern`), no flags:
``` /(.*?)(?:\s+[A-Za-z ]+\s*:|$)/ ```. -/
def genericRE : RE :=
  cats [.grp (.starL dotCC),
    .alt (cats [.plusG jsWs, .plusG alphaSpaceCC, .starG jsWs, .lit false ':'])
      (.eol false)]

/-- Strategy 8 (`multiLinePattern`), flags `i`:
``` `\*\*${keyword}\s*:\*\*?\s*\n([\s\S]*?)(?=\*\*[^*]+:\*\*?|$)` ```. -/
def pat8 (kw : List Char) : RE :=
  mkPat emphPre true kw
    (cats [.starG jsWs, .lit true ':',
      .lit true '*', .optG true '*', .starG jsWs, .lit true '\n',
      .grp (.starL anyCC),
      .look (.alt
        (cats [.lit true '*', .lit true '*', .plusG notStar, .lit true ':',
          .lit true '*', .optG true '*'])
        (.eol false))])

/-- The pattern of the blank-line collapser `replace(/\n\s*\n/g, '\n')`. -/
def blankRE : RE := cats [.lit false '\n', .starG jsWs, .lit false '\n']

/-- `s.replace(/\n\s*\n/g, '\n')`. -/
def collapseBlank (l : List Char) : List Char := replaceGo blankRE ['\n'] l none

/-- Strategy 1 of `extractFieldValue`: match `pat1`, return the trimmed
capture when it is non-empty. -/
def strategy1 (kw text : List Char) : Option (List Char) :=
  match runPat (pat1 kw) text with
  | some res => let v := jsTrimL (grpStr res); if v ≠ [] then some v else none
  | none => none

/-- Strategy 2 of `extractFieldValue`. -/
def strategy2 (kw text : List Char) : Option (List Char) :=
  match runPat (pat2 kw) text with
  | some res => let v := jsTrimL (grpStr res); if v ≠ [] then some v else none
  | none => none

/-- Strategy 3 of `extractFieldValue`. -/
def strategy3 (kw text : List Char) : Option (List Char) :=
  match runPat (pat3 kw) text with
  | some res => let v := jsTrimL (grpStr res); if v ≠ [] then some v else none
  | none => none

/-- Strategy 4 of `extractFieldValue`. -/
def strategy4 (kw text : List Char) : Option (List Char) :=
  match runPat (pat4 kw) text with
  | some res => let v := jsTrimL (grpStr res); if v ≠ [] then some v else none
  | none => none

/-- Strategy 5 of `extractFieldValue`. -/
def strategy5 (kw text : List Char) : Option (List Char) :=
  match runPat (pat5 kw) text with
  | some res => let v := jsTrimL (grpStr res); if v ≠ [] then some v else none
  | none => none

/-- Strategy 6 of `extractFieldValue`. -/
def strategy6 (kw text : List Char) : Option (List Char) :=
  match runPat (pat6 kw) text with
  | some res => let v := jsTrimL (grpStr res); if v ≠ [] then some v else none
  | none => none

/-- Strategy 7 of `extractFieldValue`: the two-stage generic fallback.  The
outer guard is JS truthiness of the raw `match[1]`, the inner guard is JS
truthiness of the raw inner capture; the returned value is the inner capture
trimmed, which can be the empty string when that capture is all
whitespace. -/
def strategy7 (kw text : List Char) : Option (List Char) :=
  match runPat (pat7 kw) text with
  | some res =>
    let m1 := grpStr res
    if m1 ≠ [] then
      match runPat genericRE m1 with
      | some res2 =>
        let v1 := grpStr res2
        if v1 ≠ [] then some (jsTrimL v1) else none
      | none => none
    else none
  | none => none

/-- Strategy 8 of `extractFieldValue`: multi-line block, with internal runs
of blank lines collapsed. -/
def strategy8 (kw text : List Char) : Option (List Char) :=
  match runPat (pat8 kw) text with
  | some res =>
    let v := jsTrimL (grpStr res)
    if v ≠ [] then some (collapseBlank v) else none
  | none => none

/-- The eight extraction strategies of `extractFieldValue`, in the order the
source attempts them. -/
def stratList : List (List Char → List Char → Option (List Char)) :=
  [strategy1, strategy2, strategy3, strategy4, strategy5, strategy6,
   strategy7, strategy8]

/-- One iteration of `extractFieldValue`'s keyword loop: the eight strategy
attempts in source order, returning at the first that fires. -/
def tryPatterns (text kw : List Char) : Option (List Char) :=
  match strategy1 kw text with
  | some v => some v
  | none =>
  match strategy2 kw text with
  | some v => some v
  | none =>
  match strategy3 kw text with
  | some v => some v
  | none =>
  match strategy4 kw text with
  | some v => some v
  | none =>
  match strategy5 kw text with
  | some v => some v
  | none =>
  match strategy6 kw text with
  | some v => some v
  | none =>
  match strategy7 kw text with
  | some v => some v
  | none => strategy8 kw text

/-- The keyword loop of `extractFieldValue`: keywords in declared order,
`null` when the loop falls through. -/
def extractLoop (text : List Char) : List (List Char) → Option (List Char)
  | [] => none
  | kw :: rest =>
    match tryPatterns text kw with
    | some v => some v
    | none => extractLoop text rest

/-- A field definition from `FIELD_CONFIG` (the source's `section` attribute
is called `sectionTag` here, `section` being reserved in Lean).  `enabled`
and `priority` are optional in submitted configurations, so they are
modelled as `Option`s. -/
structure FieldDef where
  keywords : List String
  sectionTag : String
  outputLabel : String
  enabled : Option Bool
  priority : Option Int
deriving DecidableEq

/-- A section definition from `SECTION_CONFIG`. -/
structure SectionDef where
  enabled : Option Bool
  label : Option String
deriving DecidableEq

/-- `extractFieldValue(text, fieldConfig)`: iterate the keyword synonyms in
declared order; for each, attempt the eight strategies in order; return the
first strategy result, `null` (`none`) if every combination fails. -/
def extractFieldValue (text : List Char) (cfg : FieldDef) : Option (List Char) :=
  extractLoop text (cfg.keywords.map String.data)

/-- The built-in default field registry `FIELD_CONFIG`, in source order. -/
def FIELD_CONFIG : List (String × FieldDef) :=
  [("category", ⟨["Category", "Categories"], "general", "Category", some true, some 1⟩),
   ("subCategories",
     ⟨["Sub Categories", "Sub Category", "Sub Categor", "Sub Categories:", "Sub Category:"],
      "general", "Sub Categories", some true, some 2⟩),
   ("deviceAction", ⟨["Device Action"], "general", "Device Action", some true, some 3⟩),
   ("signature", ⟨["Signature", "Signatures", "Signature Alert"], "general", "Signature",
     some true, some 3⟩),
   ("eventClassID", ⟨["Device Event Class ID", "Event Class ID"], "general",
     "Event Class ID", some true, some 4⟩),
   ("severity", ⟨["Severity"], "general", "Severity", some false, some 4⟩),
   ("dateOfIssue", ⟨["Date of Issue"], "general", "Date of Issue", some false, some 5⟩),
   ("startTime", ⟨["Start Time"], "general", "Start Time", some false, some 6⟩),
   ("endTime", ⟨["End Time"], "general", "End Time", some false, some 7⟩),
   ("destinationPort", ⟨["Destination Port"], "general", "Destination Port",
     some false, some 8⟩)]

/-- The built-in default section registry `SECTION_CONFIG`. -/
def SECTION_CONFIG : List (String × SectionDef) :=
  [("general", ⟨some true, some "Incident General Information"⟩),
   ("incidentInfo", ⟨some true, some "Incident Information"⟩),
   ("actionRecommendation", ⟨some true, some "Action & Recommendation"⟩)]

/-- First pattern of `extractIncidentInformation`, no flags:
``` /\*\*Incident Information\*\*\s*([\s\S]*?)\s*(?:\*\*Event Time\*\*|\*\*Action & Recommendation\*\*|$)/ ```. -/
def incidentPat1 : RE :=
  cats [litStr false "**Incident Information**".data, .starG jsWs,
    .grp (.starL anyCC), .starG jsWs,
    .alt (litStr false "**Event Time**".data)
      (.alt (litStr false "**Action & Recommendation**".data) (.eol false))]

/-- Second pattern of `extractIncidentInformation`, no flags:
``` /Incident Information\s*([\s\S]*?)\s*(?:Event Time|Action & Recommendation|$)/ ```. -/
def incidentPat2 : RE :=
  cats [litStr false "Incident Information".data, .starG jsWs,
    .grp (.starL anyCC), .starG jsWs,
    .alt (litStr false "Event Time".data)
      (.alt (litStr false "Action & Recommendation".data) (.eol false))]

/-- The emphasised detail marker stripped from the incident block:
``` /\*\*Incident Detail[^*]*\*\*/ ```. -/
def detailStarRE : RE :=
  cats [litStr false "**Incident Detail".data, .starG notStar,
    .lit false '*', .lit false '*']

/-- The plain detail marker stripped from the incident block:
``` /Incident Detail:/ ```. -/
def detailPlainRE : RE := litStr false "Incident Detail:".data

/-- The body shared by both iterations of `extractIncidentInformation`'s
pattern loop: on a match with a non-empty trimmed capture, strip the detail
markers and return the remainder when it is still non-empty. -/
def incidentStep (text : List Char) (r : RE) : Option (List Char) :=
  match runPat r text with
  | some res =>
    if jsTrimL (grpStr res) ≠ [] then
      let content := jsTrimL (replaceOnce detailStarRE [] (grpStr res))
      let content := jsTrimL (replaceOnce detailPlainRE [] content)
      if content ≠ [] then some content else none
    else none
  | none => none

/-- `extractIncidentInformation(text)`: the two patterns in order, falling
through when a pattern misses or its stripped content is empty. -/
def extractIncidentInformation (text : List Char) : Option (List Char) :=
  match incidentStep text incidentPat1 with
  | some c => some c
  | none => incidentStep text incidentPat2

/-- First pattern of `extractActionRecommendation`, no flags:
``` /\*\*Action & Recommendation\*\*\s*([\s\S]*)/ ```. -/
def actionPat1 : RE :=
  cats [litStr false "**Action & Recommendation**".data, .starG jsWs,
    .grp (.starG anyCC)]

/-- Second pattern of `extractActionRecommendation`, no flags:
``` /Action & Recommendation\s*([\s\S]*)/ ```. -/
def actionPat2 : RE :=
  cats [litStr false "Action & Recommendation".data, .starG jsWs,
    .grp (.starG anyCC)]

/-- One iteration of `extractActionRecommendation`'s pattern loop. -/
def actionStep (text : List Char) (r : RE) : Option (List Char) :=
  match runPat r text with
  | some res =>
    let v := jsTrimL (grpStr res)
    if v ≠ [] then some (collapseBlank v) else none
  | none => none

/-- `extractActionRecommendation(text)`: from the section header to the end
of the text, with runs of blank lines collapsed. -/
def extractActionRecommendation (text : List Char) : Option (List Char) :=
  match actionStep text actionPat1 with
  | some c => some c
  | none => actionStep text actionPat2

/-- An entry of the extracted-fields map: `{ label, value }`. -/
structure LabelVal where
  label : String
  value : String
deriving DecidableEq

/-- JS property read `obj[key]` on an object modelled as an insertion-ordered
association list. -/
def jsGet {α : Type} (l : List (String × α)) (k : String) : Option α :=
  (l.find? (fun e => e.1 == k)).map (fun e => e.2)

/-- JS `Object.assign(base, patch)` / spread `{...base, ...patch}`: existing
keys keep their position with the patch value; new keys are appended in
patch order.  (JS objects cannot hold duplicate keys, so patches are
assumed duplicate-free.) -/
def assign {α : Type} (base patch : List (String × α)) : List (String × α) :=
  base.map (fun e =>
    match jsGet patch e.1 with
    | some v => (e.1, v)
    | none => e) ++
  patch.filter (fun e => (jsGet base e.1).isNone)

/-- Map `asciiLower` over a list (JS `toLowerCase` on the ASCII range). -/
def lowerL (l : List Char) : List Char := l.map asciiLower

/-- `hay.startsWith(needle)` on character lists. -/
def startsWithL : List Char → List Char → Bool
  | [], _ => true
  | _ :: _, [] => false
  | a :: as, b :: bs => a == b && startsWithL as bs

/-- `hay.includes(needle)` on character lists. -/
def containsL (needle : List Char) : List Char → Bool
  | [] => startsWithL needle []
  | c :: tl => startsWithL needle (c :: tl) || containsL needle tl

/-- `hay.toLowerCase().includes(needle.toLowerCase())`: case-insensitive
substring test. -/
def subCI (needle hay : String) : Bool :=
  containsL (lowerL needle.data) (lowerL hay.data)

/-- A per-request filter specification.  A present `Option` models a value
that passes the source's `Array.isArray` / `typeof number` guard; anything
else behaves as absent. -/
structure FilterSpec where
  enabled : Option (List String)
  disabled : Option (List String)
  includeOnly : Option (List String)
  maxFields : Option Int
deriving DecidableEq

/-- The priority the cap stage reads for a key:
`FIELD_CONFIG[key]?.priority || 999` — the process-wide registry, with a
missing key, a missing priority or a priority of `0` (JS falsy) all mapped
to `999`. -/
def priOf (global : List (String × FieldDef)) (k : String) : Int :=
  match jsGet global k with
  | some fd =>
    match fd.priority with
    | some p => if p == 0 then 999 else p
    | none => 999
  | none => 999

/-- Insert at the end of the run of equal-or-smaller priorities: the stable
insertion step. -/
def insertPri (x : (String × LabelVal) × Int) :
    List ((String × LabelVal) × Int) → List ((String × LabelVal) × Int)
  | [] => [x]
  | y :: ys => if y.2 ≤ x.2 then y :: insertPri x ys else x :: y :: ys

/-- Stable sort ascending by priority, as ES2019+ `Array.prototype.sort`
with the comparator `(a, b) => a.priority - b.priority`. -/
def sortPri (l : List ((String × LabelVal) × Int)) : List ((String × LabelVal) × Int) :=
  l.foldl (fun acc x => insertPri x acc) []

/-- JS `Array.prototype.slice(0, n)` (a negative `n` counts from the end). -/
def jsSlice {α : Type} (n : Int) (l : List α) : List α :=
  if n < 0 then l.take (((l.length : Int) + n).toNat) else l.take n.toNat

/-- `applyFieldFilters(extractedFields, filters)` — the source closes over the
process-wide `FIELD_CONFIG` for the cap stage's priorities, passed here as
`global`. -/
def applyFieldFilters (extractedFields : List (String × LabelVal)) (filters : FilterSpec)
    (global : List (String × FieldDef)) : List (String × LabelVal) :=
  let f1 := match filters.enabled with
    | some enabledList => extractedFields.filter (fun e => enabledList.contains e.1)
    | none => extractedFields
  let f2 := match filters.disabled with
    | some disabledList => f1.filter (fun e => !(disabledList.contains e.1))
    | none => f1
  let f3 := match filters.includeOnly with
    | some keywordList => f2.filter (fun e =>
        keywordList.any (fun kw => subCI kw e.2.label || subCI kw e.2.value))
    | none => f2
  match filters.maxFields with
  | some n =>
    if n ≠ 0 then
      (jsSlice n (sortPri (f3.map (fun e => (e, priOf global e.1))))).map (fun x => x.1)
    else f3
  | none => f3

/-- The allow-list stage of the pipeline, as its own function. -/
def allowStage (o : Option (List String)) (l : List (String × LabelVal)) :
    List (String × LabelVal) :=
  match o with
  | some ks => l.filter (fun e => ks.contains e.1)
  | none => l

/-- The deny-list stage of the pipeline, as its own function. -/
def denyStage (o : Option (List String)) (l : List (String × LabelVal)) :
    List (String × LabelVal) :=
  match o with
  | some ks => l.filter (fun e => !(ks.contains e.1))
  | none => l

/-- The keyword-search stage of the pipeline, as its own function. -/
def kwStage (o : Option (List String)) (l : List (String × LabelVal)) :
    List (String × LabelVal) :=
  match o with
  | some ks => l.filter (fun e => ks.any (fun kw => subCI kw e.2.label || subCI kw e.2.value))
  | none => l

/-- The max-count cap stage of the pipeline, as its own function. -/
def capStage (global : List (String × FieldDef)) (o : Option Int)
    (l : List (String × LabelVal)) : List (String × LabelVal) :=
  match o with
  | some n =>
    if n ≠ 0 then
      (jsSlice n (sortPri (l.map (fun e => (e, priOf global e.1))))).map (fun x => x.1)
    else l
  | none => l

/-- The cutoff marker pattern, flags `i`: ``` /\n\s*(Graph|Additional detail)/ ```. -/
def cutoffRE : RE :=
  cats [.lit true '\n', .starG jsWs,
    .grp (.alt (litStr true "Graph".data) (litStr true "Additional detail".data))]

/-- The preprocessor of `POST /api/format-report`: truncate the raw text at
the cutoff match (`rawText.substring(0, cutoffMatch.index)`), or use it in
full when the pattern misses. -/
def textToParse (raw : List Char) : List Char :=
  match runPat cutoffRE raw with
  | some (i, _) => raw.take i
  | none => raw

/-- A JSON value as far as the `rawText` guard observes it: a string, or
anything else (all non-strings fail `typeof rawText === 'string'` and are
rejected the same way). -/
inductive JVal where
  | str (s : String)
  | nonString
deriving DecidableEq

/-- The body of a `POST /api/format-report` request. -/
structure FormatRequest where
  rawText : Option JVal
  customFields : Option (List (String × FieldDef))
  fieldFilters : FilterSpec
  sections : List (String × SectionDef)
deriving DecidableEq

/-- The empty filter specification (the route's `fieldFilters = {}` default). -/
def emptyFilters : FilterSpec := ⟨none, none, none, none⟩

/-- The 200 payload of `POST /api/format-report`. -/
structure FormatOk where
  formattedText : String
  extractedFields : List (String × LabelVal)
  appliedFilters : FilterSpec
  sectionsIncluded : List String
deriving DecidableEq

/-- The outcome of `POST /api/format-report`: HTTP 200 with a payload, or
HTTP 400 with an error message. -/
inductive FormatResult where
  | ok (r : FormatOk)
  | err400 (msg : String)
deriving DecidableEq

/-- The process-wide mutable registry (`FIELD_CONFIG` and `SECTION_CONFIG`). -/
structure ServerState where
  fieldConfig : List (String × FieldDef)
  sectionConfig : List (String × SectionDef)
deriving DecidableEq

/-- The registry at process start. -/
def defaultState : ServerState := ⟨FIELD_CONFIG, SECTION_CONFIG⟩

/-- `sectionConfig.key?.enabled !== false` (a missing section passes). -/
def sectEnabled (o : Option SectionDef) : Bool :=
  match o with
  | none => true
  | some sd => sd.enabled != some false

/-- `sectionConfig.key?.label || default` (a missing or empty label falls
back on the default). -/
def sectLabel (o : Option SectionDef) (dflt : String) : String :=
  match o with
  | some sd =>
    match sd.label with
    | some l => if l == "" then dflt else l
    | none => dflt
  | none => dflt

/-- The composer's canonical key order for the general section. -/
def fieldOrder : List String :=
  ["category", "subCategories", "deviceAction", "severity", "dateOfIssue",
   "startTime", "endTime", "destinationPort"]

/-- Everything `POST /api/format-report` does after the `rawText` guard and
the cutoff: per-field extraction over the merged field config, the filter
pipeline, section extraction, and the composer. -/
def formatFromParsed (st : ServerState) (req : FormatRequest) (parsed : List Char) :
    FormatOk :=
  let fieldConfig := match req.customFields with
    | some cf => assign st.fieldConfig cf
    | none => st.fieldConfig
  let sectionConfig := assign st.sectionConfig req.sections
  let extracted0 := fieldConfig.filterMap (fun e =>
    if e.2.sectionTag == "general" && e.2.enabled != some false then
      match extractFieldValue parsed e.2 with
      | some v => if v ≠ [] then some (e.1, (⟨e.2.outputLabel, String.mk v⟩ : LabelVal)) else none
      | none => none
    else none)
  let extracted := applyFieldFilters extracted0 req.fieldFilters st.fieldConfig
  let generalStr :=
    if !extracted.isEmpty && sectEnabled (jsGet sectionConfig "general") then
      "    " ++ sectLabel (jsGet sectionConfig "general") "Incident General Information" ++
      "\n" ++
      (fieldOrder.foldl (fun acc k =>
        match jsGet extracted k with
        | some f => acc ++ f.label ++ " : " ++ f.value ++ "\n"
        | none => acc) "") ++
      (extracted.foldl (fun acc e =>
        if fieldOrder.contains e.1 then acc
        else acc ++ e.2.label ++ " : " ++ e.2.value ++ "\n") "")
    else ""
  let incidentStr :=
    if sectEnabled (jsGet sectionConfig "incidentInfo") then
      match extractIncidentInformation parsed with
      | some c =>
        "\n    " ++ sectLabel (jsGet sectionConfig "incidentInfo") "Incident Information" ++
        "\n" ++ String.mk c ++ "\n"
      | none => ""
    else ""
  let actionStr :=
    if sectEnabled (jsGet sectionConfig "actionRecommendation") then
      match extractActionRecommendation parsed with
      | some c =>
        "\n    " ++
        sectLabel (jsGet sectionConfig "actionRecommendation") "Action & Recommendation" ++
        "\n" ++ String.mk c ++ "\n"
      | none => ""
    else ""
  { formattedText := String.mk (jsTrimEndL (generalStr ++ incidentStr ++ actionStr).data)
    extractedFields := extracted
    appliedFilters := req.fieldFilters
    sectionsIncluded := (sectionConfig.filter (fun e => sectEnabled (some e.2))).map
      (fun e => e.1) }

/-- The exact 400 message of the `rawText` guard. -/
def badRawTextMsg : String := "Request body must contain a \"rawText\" string."

/-- `POST /api/format-report`: the `rawText` guard
(`!rawText || typeof rawText !== 'string'`), then cutoff and pipeline. -/
def formatReport (st : ServerState) (req : FormatRequest) : FormatResult :=
  match req.rawText with
  | some (.str v) =>
    if v == "" then .err400 badRawTextMsg
    else .ok (formatFromParsed st req (textToParse v.data))
  | _ => .err400 badRawTextMsg

/-- The format route as a state transformer: it never writes the registry. -/
def formatReportHandler (st : ServerState) (req : FormatRequest) :
    FormatResult × ServerState :=
  (formatReport st req, st)

/-- The body of a `POST /api/format-report/config` request. -/
structure ConfigRequest where
  fieldConfig : Option (List (String × FieldDef))
  sectionConfig : Option (List (String × SectionDef))
deriving DecidableEq

/-- The outcome of `POST /api/format-report/config`. -/
inductive ConfigResult where
  | ok (fc : List (String × FieldDef)) (sc : List (String × SectionDef))
  | err400 (msg : String)
deriving DecidableEq

/-- `POST /api/format-report/config`: reject when both payloads are absent,
otherwise `Object.assign` each submitted map into the live registry and
echo the merged state. -/
def configUpdateHandler (st : ServerState) (req : ConfigRequest) :
    ConfigResult × ServerState :=
  match req.fieldConfig, req.sectionConfig with
  | none, none =>
    (.err400 "Request body must contain \"fieldConfig\" and/or \"sectionConfig\" object.", st)
  | fc, sc =>
    let st' : ServerState :=
      ⟨assign st.fieldConfig (fc.getD []), assign st.sectionConfig (sc.getD [])⟩
    (.ok st'.fieldConfig st'.sectionConfig, st')

/-! ## Supporting lemmas -/

theorem toNat_ofNat_valid {n : Nat} (h : n.isValidChar) : (Char.ofNat n).toNat = n := by
  rw [Char.ofNat, dif_pos h]
  rfl

theorem char_le_toNat {a b : Char} (h : a ≤ b) : a.toNat ≤ b.toNat := by
  simp only [Char.le_def, UInt32.le_def, BitVec.le_def] at h
  exact h

theorem asciiLower_eq_star {c : Char} (h : asciiLower c = '*') : c = '*' := by
  unfold asciiLower at h
  by_cases hc : 'A' ≤ c ∧ c ≤ 'Z'
  · rw [if_pos hc] at h
    exfalso
    have h65 : ('A').toNat ≤ c.toNat := char_le_toNat hc.1
    have h90 : c.toNat ≤ ('Z').toNat := char_le_toNat hc.2
    have ha : ('A').toNat = 65 := rfl
    have hz : ('Z').toNat = 90 := rfl
    have hval : (c.toNat + 32).isValidChar := Or.inl (by omega)
    have h2 := congrArg Char.toNat h
    rw [toNat_ofNat_valid hval] at h2
    have hs : ('*').toNat = 42 := rfl
    omega
  · rw [if_neg hc] at h
    exact h

/-! ## The waterfall structure of `extractFieldValue` (claim C1) -/

theorem tryPatterns_eq (text kw : List Char) :
    tryPatterns text kw = stratList.findSome? (fun s => s kw text) := by
  unfold tryPatterns
  simp only [stratList, List.findSome?_cons, List.findSome?_nil]
  cases strategy1 kw text
  case some => rfl
  cases strategy2 kw text
  case some => rfl
  cases strategy3 kw text
  case some => rfl
  cases strategy4 kw text
  case some => rfl
  cases strategy5 kw text
  case some => rfl
  cases strategy6 kw text
  case some => rfl
  cases strategy7 kw text
  case some => rfl
  cases strategy8 kw text
  case some => rfl
  case none => rfl

theorem extractLoop_eq (text : List Char) (kws : List (List Char)) :
    extractLoop text kws =
      kws.findSome? (fun kw => stratList.findSome? (fun s => s kw text)) := by
  induction kws with
  | nil => rfl
  | cons kw rest ih =>
    rw [extractLoop, tryPatterns_eq, List.findSome?_cons]
    cases h : stratList.findSome? (fun s => s kw text) with
    | none => simpa using ih
    | some v => simp

theorem extractFieldValue_eq (text : List Char) (cfg : FieldDef) :
    extractFieldValue text cfg =
      (cfg.keywords.map String.data).findSome?
        (fun kw => stratList.findSome? (fun s => s kw text)) :=
  extractLoop_eq text _

/-- C1 (amended): for every field definition and every text,
`extractFieldValue` iterates the keyword synonyms in declared order and,
per keyword, the eight strategies in the fixed order
tabular, emphasis-same-line-no-closing, emphasis-next-line-no-closing,
emphasis-same-line-closing-required, emphasis-next-line-closing-required,
simple-standalone-line, generic-fallback, multi-line-block, returning the
result of the first strategy+keyword combination that succeeds by its own
guard — which for the generic fallback (strategy 7) can be the empty
string, when its inner capture is whitespace-only — and returning `null`
exactly when every strategy fails for every keyword. -/
theorem C1_waterfall (text : List Char) (cfg : FieldDef) :
    extractFieldValue text cfg =
      (cfg.keywords.map String.data).findSome?
        (fun kw => stratList.findSome? (fun s => s kw text)) ∧
    (extractFieldValue text cfg = none ↔
      ∀ kw ∈ cfg.keywords, ∀ s ∈ stratList, s kw.data text = none) := by
  refine ⟨extractFieldValue_eq text cfg, ?_⟩
  rw [extractFieldValue_eq]
  simp only [List.findSome?_eq_none_iff, List.mem_map]
  constructor
  · intro h kw hkw s hs
    exact h kw.data ⟨kw, hkw, rfl⟩ s hs
  · rintro h kw ⟨kw', hkw', rfl⟩ s hs
    exact h kw' hkw' s hs

/-- C1 counterexample: on this input, strategy 7 matches `"Category"` with a
whitespace-only inner capture and `extractFieldValue` returns the EMPTY
string (not `null`, and not a non-empty trimmed value), contradicting the
claim that a value is returned only when some strategy+keyword combination
produces a non-empty trimmed value. -/
theorem C1_empty_value_cex :
    extractFieldValue "Category : \n  ".data
        ⟨["Category", "Categories"], "general", "Category", some true, some 1⟩ =
      some [] ∧
    strategy7 "Category".data "Category : \n  ".data = some [] := by
  constructor <;> rfl

/-- C9: the end-to-end example of the spec: with the default registry and no
filters, the given raw text formats to exactly the expected report — the
general-information header line, the two extracted fields, a blank line,
the recommendation header, and the two recommendation lines with the blank
line between them collapsed and trailing whitespace stripped. -/
theorem C9_end_to_end :
    formatReport defaultState
      ⟨some (.str "Category : Malware\nSub Category: Phishing\n\nAction & Recommendation\nBlock sender\n\nBlock domain"),
       none, emptyFilters, []⟩ = .ok
      { formattedText := "    Incident General Information\nCategory : Malware\nSub Categories : Phishing\n\n    Action & Recommendation\nBlock sender\nBlock domain"
        extractedFields := [("category", ⟨"Category", "Malware"⟩),
          ("subCategories", ⟨"Sub Categories", "Phishing"⟩)]
        appliedFilters := emptyFilters
        sectionsIncluded := ["general", "incidentInfo", "actionRecommendation"] } := by
  rfl

/-- C10: the tabular strategy and the waterfall have no word-boundary or
line-start anchoring, so the input `"Sub Category: Phishing"` — which has no
standalone `Category` label — still yields an extracted `category` field with
value `"Phishing"` under the default registry: the keyword `Category`
matches inside the label `Sub Category`. -/
theorem C10_substring_capture :
    strategy1 "Category".data "Sub Category: Phishing".data = some "Phishing".data ∧
    extractFieldValue "Sub Category: Phishing".data
        ⟨["Category", "Categories"], "general", "Category", some true, some 1⟩ =
      some "Phishing".data ∧
    (match formatReport defaultState
        ⟨some (.str "Sub Category: Phishing"), none, emptyFilters, []⟩ with
     | .ok r => jsGet r.extractedFields "category"
     | .err400 _ => none) = some ⟨"Category", "Phishing"⟩ := by
  refine ⟨by rfl, by rfl, by rfl⟩

/-! ## The filter pipeline (claims C4, C5) -/

theorem applyFieldFilters_stages (l : List (String × LabelVal)) (f : FilterSpec)
    (g : List (String × FieldDef)) :
    applyFieldFilters l f g =
      capStage g f.maxFields (kwStage f.includeOnly (denyStage f.disabled (allowStage f.enabled l))) := by
  rfl

/-- C4 (amended): when `maxFields` is present as a non-zero number `N`, the
cap stage operates on the output of the allow-list, deny-list and keyword
stages: it sorts those fields ascending by the priority recorded in the
process-wide registry — not the per-request merged configuration — with a
missing key, a missing priority, or a priority of `0` all ranked `999`, ties
broken by encounter order (stable sort), keeps the JS `slice(0, N)` prefix,
and for positive `N` the result never has more than `N` fields.  (For
`maxFields = 0`, a falsy number, the source skips the cap entirely — see the
counterexample.) -/
theorem C4_cap (l : List (String × LabelVal)) (f : FilterSpec)
    (g : List (String × FieldDef)) (n : Int)
    (h1 : f.maxFields = some n) (h2 : n ≠ 0) :
    applyFieldFilters l f g =
      (jsSlice n (sortPri ((kwStage f.includeOnly (denyStage f.disabled (allowStage f.enabled l))).map
        (fun e => (e, priOf g e.1))))).map (fun x => x.1) ∧
    (0 < n → (applyFieldFilters l f g).length ≤ n.toNat) := by
  have hmain : applyFieldFilters l f g =
      (jsSlice n (sortPri ((kwStage f.includeOnly (denyStage f.disabled (allowStage f.enabled l))).map
        (fun e => (e, priOf g e.1))))).map (fun x => x.1) := by
    rw [applyFieldFilters_stages, h1]
    simp only [capStage]
    rw [if_pos h2]
  refine ⟨hmain, fun hpos => ?_⟩
  rw [hmain, List.length_map, jsSlice, if_neg (by omega)]
  calc (List.take n.toNat _).length ≤ n.toNat := by
        rw [List.length_take]
        omega

/-- C4 counterexample: `maxFields = 0` is a number, so the claim promises at
most `0` fields, but `0` is falsy in JS and the source skips the cap stage
entirely: one matched field survives. -/
theorem C4_zero_cap_cex :
    (applyFieldFilters [("category", ⟨"Category", "Malware"⟩)]
        ⟨none, none, none, some 0⟩ FIELD_CONFIG).length = 1 := by
  rfl

/-- C5: when `includeOnly` is present, the keyword-search stage operates on
the output of the allow-list and deny-list stages and retains exactly the
fields whose label or value case-insensitively contains at least one listed
keyword as a substring. -/
theorem C5_keyword_stage (l : List (String × LabelVal)) (f : FilterSpec)
    (g : List (String × FieldDef)) (ks : List String)
    (h : f.includeOnly = some ks) :
    applyFieldFilters l f g =
      capStage g f.maxFields (kwStage (some ks) (denyStage f.disabled (allowStage f.enabled l))) ∧
    ∀ e, (e ∈ kwStage (some ks) (denyStage f.disabled (allowStage f.enabled l)) ↔
      e ∈ denyStage f.disabled (allowStage f.enabled l) ∧
        ∃ kw ∈ ks, (subCI kw e.2.label = true ∨ subCI kw e.2.value = true)) := by
  constructor
  · rw [applyFieldFilters_stages, h]
  · intro e
    simp [kwStage, List.mem_filter, List.any_eq_true, Bool.or_eq_true]

/-! ## The configuration registry (claim C7) -/

theorem jsGet_append {α : Type} (a b : List (String × α)) (k : String) :
    jsGet (a ++ b) k = (jsGet a k).orElse (fun _ => jsGet b k) := by
  unfold jsGet
  rw [List.find?_append]
  cases List.find? (fun e => e.1 == k) a <;> simp


theorem jsGet_cons {α : Type} (k0 : String) (v0 : α) (rest : List (String × α)) (k : String) :
    jsGet ((k0, v0) :: rest) k = if k0 == k then some v0 else jsGet rest k := by
  unfold jsGet
  rw [List.find?_cons]
  by_cases h : k0 == k
  · simp [h]
  · simp [h]

theorem jsGet_singleton {α : Type} (k : String) (d : α) (k' : String) :
    jsGet [(k, d)] k' = if k == k' then some d else none := by
  rw [jsGet_cons]
  rfl

theorem assign_singleton {α : Type} (base : List (String × α)) (k : String) (d : α) :
    assign base [(k, d)] =
      base.map (fun e => if k == e.1 then (e.1, d) else e) ++
        (if (jsGet base k).isNone then [(k, d)] else []) := by
  unfold assign
  congr 1
  · apply List.map_congr_left
    intro e _
    rw [jsGet_singleton]
    by_cases h : k == e.1
    · simp [h]
    · simp [h]
  · rw [List.filter]
    by_cases h : (jsGet base k).isNone
    · simp [h, List.filter]
    · simp [h, List.filter]

theorem jsGet_map_single {α : Type} (l : List (String × α)) (k k' : String) (d : α) :
    jsGet (l.map (fun e => if k == e.1 then (e.1, d) else e)) k' =
      if k == k' then (jsGet l k').map (fun _ => d) else jsGet l k' := by
  induction l with
  | nil => by_cases h : k == k' <;> simp [jsGet, h]
  | cons e0 rest ih =>
    obtain ⟨k0, v0⟩ := e0
    by_cases h0 : k = k0
    · subst h0
      by_cases h1 : (k == k') = true
      · rw [List.map_cons, if_pos (by simp), jsGet_cons, if_pos h1, jsGet_cons,
          if_pos h1, if_pos h1]
        simp
      · have h1f : (k == k') = false := by simpa using h1
        rw [List.map_cons, if_pos (by simp), jsGet_cons, if_neg (by simp [h1f]), ih,
          if_neg (by simp [h1f]), jsGet_cons, if_neg (by simp [h1f]),
          if_neg (by simp [h1f])]
    · have h0f : (k == k0) = false := by simp [h0]
      rw [List.map_cons, if_neg (by simp [h0f]), jsGet_cons, jsGet_cons]
      by_cases h1 : (k0 == k') = true
      · have hk0 : k0 = k' := by simpa using h1
        subst hk0
        rw [if_pos h1, if_pos h1, if_neg (by simp [h0f])]
      · have h1f : (k0 == k') = false := by simpa using h1
        simp only [h1f, Bool.false_eq_true, if_false]
        exact ih

theorem jsGet_assign_single_same {α : Type} (base : List (String × α)) (k : String) (d : α) :
    jsGet (assign base [(k, d)]) k = some d := by
  rw [assign_singleton, jsGet_append, jsGet_map_single, if_pos (by simp)]
  cases hb : jsGet base k with
  | some v => simp [hb]
  | none => simp [hb, jsGet_singleton]

theorem jsGet_assign_single_other {α : Type} (base : List (String × α)) (k : String) (d : α)
    (k' : String) (h : k' ≠ k) :
    jsGet (assign base [(k, d)]) k' = jsGet base k' := by
  have hkk' : (k == k') = false := by
    simp only [beq_eq_false_iff_ne, ne_eq]
    exact fun he => h he.symm
  rw [assign_singleton, jsGet_append, jsGet_map_single, if_neg (by simp [hkk'])]
  cases hb : (jsGet base k).isNone with
  | true => simp [hb, jsGet_singleton, hkk']
  | false =>
    simp only [hb, if_false, Bool.false_eq_true]
    cases hb' : jsGet base k' <;> simp [jsGet, hb']

theorem assign_nil {α : Type} (base : List (String × α)) : assign base [] = base := by
  unfold assign
  simp [jsGet]

/-- C7: submitting a configuration update carrying a new definition for one
field key replaces that key's entire definition (the stored definition is
exactly the submitted one — a shallow, whole-value replace, no attribute
merge), leaves every other field key's definition unchanged, and leaves the
section registry untouched. -/
theorem C7_shallow_replace (st : ServerState) (k : String) (d : FieldDef) :
    jsGet (configUpdateHandler st ⟨some [(k, d)], none⟩).2.fieldConfig k = some d ∧
    (∀ k', k' ≠ k → jsGet (configUpdateHandler st ⟨some [(k, d)], none⟩).2.fieldConfig k' =
      jsGet st.fieldConfig k') ∧
    (configUpdateHandler st ⟨some [(k, d)], none⟩).2.sectionConfig = st.sectionConfig := by
  refine ⟨?_, fun k' h => ?_, ?_⟩
  · exact jsGet_assign_single_same st.fieldConfig k d
  · exact jsGet_assign_single_other st.fieldConfig k d k' h
  · exact assign_nil st.sectionConfig

/-- Witness for `C7_shallow_replace`: a concrete update of the `category`
definition leaves `subCategories` untouched. -/
theorem C7_shallow_replace_witness :
    jsGet (configUpdateHandler defaultState
        ⟨some [("category", ⟨["Cat"], "general", "Cat", some true, some 7⟩)], none⟩).2.fieldConfig
        "category" =
      some ⟨["Cat"], "general", "Cat", some true, some 7⟩ ∧
    jsGet (configUpdateHandler defaultState
        ⟨some [("category", ⟨["Cat"], "general", "Cat", some true, some 7⟩)], none⟩).2.fieldConfig
        "subCategories" =
      jsGet defaultState.fieldConfig "subCategories" := by
  refine ⟨(C7_shallow_replace defaultState "category" _).1, ?_⟩
  exact (C7_shallow_replace defaultState "category"
    ⟨["Cat"], "general", "Cat", some true, some 7⟩).2.1 "subCategories" (by decide)

/-! ## The `rawText` guard (claim C8) -/

/-- C8: a request whose `rawText` is missing, the empty string, or not a
string is answered with HTTP 400 and the exact message
`Request body must contain a "rawText" string.`, and the registry is
unchanged (the format route never writes it). -/
theorem C8_bad_rawText (st : ServerState) (req : FormatRequest)
    (h : req.rawText = none ∨ req.rawText = some (.str "") ∨ req.rawText = some .nonString) :
    formatReportHandler st req =
      (.err400 "Request body must contain a \"rawText\" string.", st) := by
  unfold formatReportHandler formatReport
  rcases h with h | h | h <;> rw [h] <;> rfl

/-- Witness for `C8_bad_rawText` at each of the three rejected shapes. -/
theorem C8_bad_rawText_witness :
    formatReportHandler defaultState ⟨none, none, emptyFilters, []⟩ =
      (.err400 "Request body must contain a \"rawText\" string.", defaultState) ∧
    formatReportHandler defaultState ⟨some (.str ""), none, emptyFilters, []⟩ =
      (.err400 "Request body must contain a \"rawText\" string.", defaultState) ∧
    formatReportHandler defaultState ⟨some .nonString, none, emptyFilters, []⟩ =
      (.err400 "Request body must contain a \"rawText\" string.", defaultState) :=
  ⟨C8_bad_rawText defaultState _ (Or.inl rfl),
   C8_bad_rawText defaultState _ (Or.inr (Or.inl rfl)),
   C8_bad_rawText defaultState _ (Or.inr (Or.inr rfl))⟩

/-- Witness for `C4_cap`: with three matched fields and `maxFields = 2`, the
cap keeps the two lowest-priority-numbered fields and its size bound holds. -/
theorem C4_cap_witness :
    (⟨none, none, none, some 2⟩ : FilterSpec).maxFields = some 2 ∧
    ((2 : Int) ≠ 0) ∧
    (applyFieldFilters
        [("signature", ⟨"Signature", "x"⟩), ("category", ⟨"Category", "y"⟩),
         ("deviceAction", ⟨"Device Action", "z"⟩)]
        ⟨none, none, none, some 2⟩ FIELD_CONFIG).length ≤ (2 : Int).toNat := by
  refine ⟨rfl, by decide, ?_⟩
  exact (C4_cap _ _ _ 2 rfl (by decide)).2 (by decide)

/-- Witness for `C5_keyword_stage`: a concrete `includeOnly` filter, with the
membership characterisation checked at one retained entry. -/
theorem C5_keyword_stage_witness :
    (⟨none, none, some ["mal"], none⟩ : FilterSpec).includeOnly = some ["mal"] ∧
    (("category", (⟨"Category", "Malware"⟩ : LabelVal)) ∈
        kwStage (some ["mal"]) (denyStage none (allowStage none
          [("category", ⟨"Category", "Malware"⟩), ("signature", ⟨"Signature", "x"⟩)])) ↔
      ("category", (⟨"Category", "Malware"⟩ : LabelVal)) ∈
        denyStage none (allowStage none
          [("category", ⟨"Category", "Malware"⟩), ("signature", ⟨"Signature", "x"⟩)]) ∧
        ∃ kw ∈ ["mal"], (subCI kw "Category" = true ∨ subCI kw "Malware" = true)) := by
  refine ⟨rfl, ?_⟩
  exact (C5_keyword_stage
    [("category", ⟨"Category", "Malware"⟩), ("signature", ⟨"Signature", "x"⟩)]
    ⟨none, none, some ["mal"], none⟩ FIELD_CONFIG ["mal"] rfl).2
    ("category", ⟨"Category", "Malware"⟩)

/-! ## Case sensitivity of the strategies (claim C2) -/

theorem mtch_litStr_ci_congr {a b : List Char} (h : lowerL a = lowerL b) :
    ∀ (st : MSt) (k : MSt → Option MSt), mtch (litStr true a) st k = mtch (litStr true b) st k := by
  induction a generalizing b with
  | nil =>
    cases b with
    | nil => intro st k; rfl
    | cons c cs => intro st k; simp [lowerL] at h
  | cons c cs ih =>
    cases b with
    | nil => intro st k; simp [lowerL] at h
    | cons d ds =>
      intro st k
      simp only [lowerL, List.map_cons, List.cons.injEq] at h
      obtain ⟨h1, h2⟩ := h
      show mtch (.cat (.lit true c) (litStr true cs)) st k =
        mtch (.cat (.lit true d) (litStr true ds)) st k
      simp only [mtch]
      cases st.rest with
      | nil => rfl
      | cons e tl =>
        dsimp only
        have hce : ciEq true c e = ciEq true d e := by
          unfold ciEq
          rw [if_pos rfl, if_pos rfl, h1]
        rw [hce]
        by_cases he : ciEq true d e
        · rw [if_pos he, if_pos he]
          exact ih h2 _ _
        · rw [if_neg he, if_neg he]

theorem mtch_mkPat_ci_congr {a b : List Char} (h : lowerL a = lowerL b) (pre post : RE) :
    ∀ st k, mtch (mkPat pre true a post) st k = mtch (mkPat pre true b post) st k := by
  intro st k
  show mtch (.cat pre (.cat (litStr true a) post)) st k =
    mtch (.cat pre (.cat (litStr true b) post)) st k
  simp only [mtch]
  congr 1
  funext st'
  exact mtch_litStr_ci_congr h st' _

theorem scanFrom_congr {r1 r2 : RE} (h : ∀ st k, mtch r1 st k = mtch r2 st k) :
    ∀ l prev i, scanFrom r1 l prev i = scanFrom r2 l prev i := by
  intro l
  induction l with
  | nil => intro prev i; simp only [scanFrom, h]
  | cons c tl ih =>
    intro prev i
    simp only [scanFrom, h]
    cases mtch r2 ⟨c :: tl, prev, none⟩ some with
    | some res => rfl
    | none => exact ih (some c) (i + 1)

theorem runPat_mkPat_ci_congr {a b : List Char} (h : lowerL a = lowerL b)
    (pre post : RE) (text : List Char) :
    runPat (mkPat pre true a post) text = runPat (mkPat pre true b post) text :=
  scanFrom_congr (mtch_mkPat_ci_congr h pre post) text none 0

theorem strategy1_ci {a b : List Char} (h : lowerL a = lowerL b) (text : List Char) :
    strategy1 a text = strategy1 b text := by
  unfold strategy1 pat1
  rw [runPat_mkPat_ci_congr h]

theorem strategy2_ci {a b : List Char} (h : lowerL a = lowerL b) (text : List Char) :
    strategy2 a text = strategy2 b text := by
  unfold strategy2 pat2
  rw [runPat_mkPat_ci_congr h]

theorem strategy3_ci {a b : List Char} (h : lowerL a = lowerL b) (text : List Char) :
    strategy3 a text = strategy3 b text := by
  unfold strategy3 pat3
  rw [runPat_mkPat_ci_congr h]

theorem strategy4_ci {a b : List Char} (h : lowerL a = lowerL b) (text : List Char) :
    strategy4 a text = strategy4 b text := by
  unfold strategy4 pat4
  rw [runPat_mkPat_ci_congr h]

theorem strategy5_ci {a b : List Char} (h : lowerL a = lowerL b) (text : List Char) :
    strategy5 a text = strategy5 b text := by
  unfold strategy5 pat5
  rw [runPat_mkPat_ci_congr h]

theorem strategy8_ci {a b : List Char} (h : lowerL a = lowerL b) (text : List Char) :
    strategy8 a text = strategy8 b text := by
  unfold strategy8 pat8
  rw [runPat_mkPat_ci_congr h]

theorem ciEq_star_false {d : Char} (hd : d ≠ '*') : ciEq true '*' d = false := by
  unfold ciEq
  rw [if_pos rfl]
  have hstar : asciiLower '*' = '*' := rfl
  rw [hstar]
  simp only [beq_eq_false_iff_ne, ne_eq]
  intro heq
  exact hd (asciiLower_eq_star heq.symm)

theorem mtch_emph_none (kw : List Char) (post : RE) (st : MSt)
    (hs : ∀ c ∈ st.rest, c ≠ '*') (k : MSt → Option MSt) :
    mtch (mkPat emphPre true kw post) st k = none := by
  show mtch (.cat emphPre (.cat (litStr true kw) post)) st k = none
  simp only [emphPre, cats, List.foldr, mtch]
  cases hrest : st.rest with
  | nil => rfl
  | cons d tl =>
    dsimp only
    have hd : d ≠ '*' := hs d (by rw [hrest]; exact List.mem_cons_self d tl)
    rw [ciEq_star_false hd]
    rfl

theorem scanFrom_emph_none (kw : List Char) (post : RE) :
    ∀ (l : List Char) (prev : Option Char) (i : Nat), (∀ c ∈ l, c ≠ '*') →
      scanFrom (mkPat emphPre true kw post) l prev i = none := by
  intro l
  induction l with
  | nil =>
    intro prev i _
    simp only [scanFrom]
    rw [mtch_emph_none kw post ⟨[], prev, none⟩ (by intro c hc; cases hc) some]
  | cons c tl ih =>
    intro prev i hs
    simp only [scanFrom]
    rw [mtch_emph_none kw post ⟨c :: tl, prev, none⟩ hs some]
    exact ih (some c) (i + 1) (fun d hd => hs d (List.mem_cons_of_mem c hd))

/-- C2 (amended): keyword matching is ASCII-case-insensitive in strategies
1–5 and 8 (their patterns carry the `i` flag): the strategy result depends
on the keyword only up to letter case.  Strategies 6 and 7 are built
without the `i` flag and match the keyword case-sensitively (see the
counterexample).  The emphasis delimiters are matched literally: on a text
containing no `*` character the emphasised strategies 2–5 and 8 can never
match, whatever the keyword. -/
theorem C2_case_sensitivity :
    (∀ a b text : List Char, lowerL a = lowerL b →
      strategy1 a text = strategy1 b text ∧ strategy2 a text = strategy2 b text ∧
      strategy3 a text = strategy3 b text ∧ strategy4 a text = strategy4 b text ∧
      strategy5 a text = strategy5 b text ∧ strategy8 a text = strategy8 b text) ∧
    (∀ kw text : List Char, (∀ c ∈ text, c ≠ '*') →
      strategy2 kw text = none ∧ strategy3 kw text = none ∧ strategy4 kw text = none ∧
      strategy5 kw text = none ∧ strategy8 kw text = none) := by
  constructor
  · intro a b text h
    exact ⟨strategy1_ci h text, strategy2_ci h text, strategy3_ci h text,
      strategy4_ci h text, strategy5_ci h text, strategy8_ci h text⟩
  · intro kw text h
    refine ⟨?_, ?_, ?_, ?_, ?_⟩ <;>
      first
      | (unfold strategy2 pat2 runPat; rw [scanFrom_emph_none _ _ text none 0 h])
      | (unfold strategy3 pat3 runPat; rw [scanFrom_emph_none _ _ text none 0 h])
      | (unfold strategy4 pat4 runPat; rw [scanFrom_emph_none _ _ text none 0 h])
      | (unfold strategy5 pat5 runPat; rw [scanFrom_emph_none _ _ text none 0 h])
      | (unfold strategy8 pat8 runPat; rw [scanFrom_emph_none _ _ text none 0 h])

/-- C2 counterexample: strategies 6 and 7 (`simpleLinePattern` and
`simplePattern`) are compiled with the `m` flag only, not `i`: a text
differing from the keyword only in letter case matches neither of them, and
on this input no other strategy fires either, so the whole waterfall misses
an input that a case-insensitive simple-line match would have caught. -/
theorem C2_case_sensitive_cex :
    strategy6 "Category".data "Category : X\nY".data = some "X".data ∧
    strategy6 "Category".data "category : X\nY".data = none ∧
    strategy7 "Category".data "category : X\nY".data = none ∧
    extractFieldValue "category : X\nY".data
        ⟨["Category", "Categories"], "general", "Category", some true, some 1⟩ = none := by
  exact ⟨by rfl, by rfl, by rfl, by rfl⟩

/-- Witness for `C2_case_sensitivity` at concrete keywords and texts. -/
theorem C2_case_sensitivity_witness :
    lowerL "AB".data = lowerL "aB".data ∧
    strategy1 "AB".data "ab : v".data = strategy1 "aB".data "ab : v".data ∧
    (∀ c ∈ "no stars here".data, c ≠ '*') ∧
    strategy2 "AB".data "no stars here".data = none := by
  refine ⟨by decide, (C2_case_sensitivity.1 _ _ _ (by decide)).1, by decide, ?_⟩
  exact (C2_case_sensitivity.2 "AB".data "no stars here".data (by decide)).1

/-! ## The cutoff preprocessor (claim C3) -/

/-- Whether a line-start suffix qualifies as a cutoff marker line in the
words of the spec: its line (the text up to the next newline), after
optional leading whitespace, begins with `Graph` or `Additional detail`
case-insensitively. -/
def lineQualifies (s : List Char) : Bool :=
  startsWithL (lowerL "Graph".data)
    (lowerL ((s.takeWhile (fun c => c != '\n')).dropWhile jsWs)) ||
  startsWithL (lowerL "Additional detail".data)
    (lowerL ((s.takeWhile (fun c => c != '\n')).dropWhile jsWs))

/-- Claim-side definition, following the spec's words amended to non-initial
lines: the character index of the start of the first line, other than the
very first, that (after optional leading whitespace) begins with a cutoff
marker.  A line other than the first is exactly a position preceded by a
newline. -/
def specMarkerGo : List Char → Nat → Option Nat
  | [], _ => none
  | c :: tl, p =>
    if c == '\n' && lineQualifies tl then some (p + 1) else specMarkerGo tl (p + 1)

/-- The start index of the first qualifying non-initial marker line. -/
def specMarker (raw : List Char) : Option Nat := specMarkerGo raw 0

theorem orElse_isSome_left {α : Type} {a b : Option α} (h : a.isSome) :
    (a <|> b).isSome := by
  cases a with
  | some v => rfl
  | none => cases h

theorem orElse_isSome_right {α : Type} {a b : Option α} (h : b.isSome) :
    (a <|> b).isSome := by
  cases a with
  | some v => rfl
  | none => simpa using h

theorem starGRun_isSome (p : Char → Bool) (k : MSt → Option MSt)
    (t : List Char) (cap : Option (List Char))
    (hk : ∀ prev', (k ⟨t, prev', cap⟩).isSome) :
    ∀ (w : List Char), (∀ c ∈ w, p c = true) →
      ∀ prev, (starGRun p k (w ++ t) prev cap).isSome := by
  intro w
  induction w with
  | nil =>
    intro _ prev
    rw [List.nil_append]
    cases t with
    | nil => exact hk prev
    | cons c tl =>
      rw [starGRun]
      by_cases hc : p c
      · rw [if_pos hc]
        exact orElse_isSome_right (hk prev)
      · rw [if_neg hc]
        exact hk prev
  | cons c w' ih =>
    intro hw prev
    rw [List.cons_append, starGRun, if_pos (hw c (List.mem_cons_self c w'))]
    exact orElse_isSome_left (ih (fun d hd => hw d (List.mem_cons_of_mem c hd)) (some c))

theorem mtch_litStr_isSome (kw : List Char) (k : MSt → Option MSt)
    (hk : ∀ st, (k st).isSome) :
    ∀ (m t : List Char) (prev : Option Char) (cap : Option (List Char)),
      lowerL m = lowerL kw → (mtch (litStr true kw) ⟨m ++ t, prev, cap⟩ k).isSome := by
  induction kw with
  | nil =>
    intro m t prev cap h
    have hm : m = [] := by simpa [lowerL] using h
    subst hm
    exact hk _
  | cons c ks ih =>
    intro m t prev cap h
    cases m with
    | nil => simp [lowerL] at h
    | cons d ms =>
      simp only [lowerL, List.map_cons, List.cons.injEq] at h
      obtain ⟨h1, h2⟩ := h
      show (mtch (.cat (.lit true c) (litStr true ks)) ⟨(d :: ms) ++ t, prev, cap⟩ k).isSome
      simp only [mtch, List.cons_append]
      rw [show ciEq true c d = true from by unfold ciEq; rw [if_pos rfl, h1]; exact beq_self_eq_true _]
      rw [if_pos rfl]
      exact ih ms t (some d) cap h2

theorem startsWithL_decomp {n : List Char} :
    ∀ {h : List Char}, startsWithL (lowerL n) (lowerL h) = true →
      ∃ m t, h = m ++ t ∧ lowerL m = lowerL n := by
  induction n with
  | nil => intro h _; exact ⟨[], h, rfl, rfl⟩
  | cons c ks ih =>
    intro h hs
    cases h with
    | nil => simp [lowerL, startsWithL] at hs
    | cons d hs' =>
      simp only [lowerL, List.map_cons, startsWithL, Bool.and_eq_true, beq_iff_eq] at hs
      obtain ⟨h1, h2⟩ := hs
      obtain ⟨m, t, hmt, hlm⟩ := ih (h := hs') (by simpa [lowerL] using h2)
      refine ⟨d :: m, t, by rw [hmt]; rfl, ?_⟩
      simp only [lowerL, List.map_cons, List.cons.injEq]
      exact ⟨h1.symm, hlm⟩

theorem startsWithL_self_append (a b : List Char) : startsWithL a (a ++ b) = true := by
  induction a with
  | nil => rfl
  | cons c cs ih => simpa [startsWithL] using ih

theorem startsWithL_of_decomp {kw m t : List Char} (h : lowerL m = lowerL kw) :
    startsWithL (lowerL kw) (lowerL (m ++ t)) = true := by
  have : lowerL (m ++ t) = lowerL kw ++ lowerL t := by
    simp only [lowerL, List.map_append]
    rw [show List.map asciiLower m = List.map asciiLower kw from h]
  rw [this]
  exact startsWithL_self_append _ _

theorem cutoff_mtch_isSome (w rest : List Char) (prev : Option Char)
    (hw : ∀ c ∈ w, jsWs c = true)
    (hm : startsWithL (lowerL "Graph".data) (lowerL rest) = true ∨
          startsWithL (lowerL "Additional detail".data) (lowerL rest) = true) :
    (mtch cutoffRE ⟨'\n' :: (w ++ rest), prev, none⟩ some).isSome := by
  have step1 : mtch cutoffRE ⟨'\n' :: (w ++ rest), prev, none⟩ some =
      starGRun jsWs
        (fun st' => mtch
          (.cat (.grp (.alt (litStr true "Graph".data) (litStr true "Additional detail".data)))
            .eps) st' some)
        (w ++ rest) (some '\n') none := rfl
  rw [step1]
  apply starGRun_isSome _ _ rest none ?_ w hw (some '\n')
  intro prev'
  have step2 : mtch
      (.cat (.grp (.alt (litStr true "Graph".data) (litStr true "Additional detail".data)))
        .eps) (⟨rest, prev', none⟩ : MSt) some =
      ((mtch (litStr true "Graph".data) ⟨rest, prev', none⟩
        (fun st2 => some ⟨st2.rest, st2.prev, some (rest.take (rest.length - st2.rest.length))⟩)) <|>
      (mtch (litStr true "Additional detail".data) ⟨rest, prev', none⟩
        (fun st2 => some ⟨st2.rest, st2.prev, some (rest.take (rest.length - st2.rest.length))⟩))) := rfl
  rw [step2]
  rcases hm with hm | hm
  · obtain ⟨m, t', hr, hlm⟩ := startsWithL_decomp hm
    subst hr
    apply orElse_isSome_left
    apply mtch_litStr_isSome _ _ ?_ m t' prev' none hlm
    intro st
    rfl
  · obtain ⟨m, t', hr, hlm⟩ := startsWithL_decomp hm
    subst hr
    apply orElse_isSome_right
    apply mtch_litStr_isSome _ _ ?_ m t' prev' none hlm
    intro st
    rfl

/-- The character preceding a scan position: the last of the consumed prefix,
or the incoming `prev` when nothing was consumed. -/
def prevOf (pre : List Char) (prev : Option Char) : Option Char :=
  match pre.getLast? with
  | some c => some c
  | none => prev

theorem prevOf_cons (c : Char) (pre : List Char) (prev : Option Char) :
    prevOf pre (some c) = prevOf (c :: pre) prev := by
  cases pre with
  | nil => rfl
  | cons d pre' =>
    unfold prevOf
    rw [List.getLast?_cons_cons]
    cases hg : (d :: pre').getLast? with
    | some e => rfl
    | none => exact absurd hg (by simp)

theorem scanFrom_isSome_le (r : RE) :
    ∀ (pre post : List Char) (prev : Option Char) (i : Nat),
      (mtch r ⟨post, prevOf pre prev, none⟩ some).isSome →
      ∃ j st, scanFrom r (pre ++ post) prev i = some (j, st) ∧ j ≤ i + pre.length := by
  intro pre
  induction pre with
  | nil =>
    intro post prev i h
    rw [List.nil_append]
    obtain ⟨res, hres⟩ := Option.isSome_iff_exists.mp h
    cases post with
    | nil =>
      refine ⟨i, res, ?_, by omega⟩
      simp only [scanFrom]
      rw [show prevOf [] prev = prev from rfl] at hres
      rw [hres]
    | cons c tl =>
      refine ⟨i, res, ?_, by omega⟩
      simp only [scanFrom]
      rw [show prevOf [] prev = prev from rfl] at hres
      rw [hres]
  | cons c pre' ih =>
    intro post prev i h
    rw [List.cons_append]
    rw [← prevOf_cons c pre' prev] at h
    simp only [scanFrom]
    cases hm : mtch r ⟨c :: (pre' ++ post), prev, none⟩ some with
    | some res => exact ⟨i, res, rfl, by omega⟩
    | none =>
      obtain ⟨j, st, hscan, hle⟩ := ih post (some c) (i + 1) h
      refine ⟨j, st, hscan, ?_⟩
      simp only [List.length_cons]
      omega

theorem specMarkerGo_decomp :
    ∀ (l : List Char) (i j : Nat), specMarkerGo l i = some j →
      ∃ pre tl, l = pre ++ '\n' :: tl ∧ lineQualifies tl = true ∧ j = i + pre.length + 1 := by
  intro l
  induction l with
  | nil => intro i j h; cases h
  | cons c tl' ih =>
    intro i j h
    rw [specMarkerGo] at h
    by_cases hc : (c == '\n' && lineQualifies tl') = true
    · rw [if_pos hc] at h
      simp only [Bool.and_eq_true, beq_iff_eq] at hc
      obtain ⟨hc1, hc2⟩ := hc
      subst hc1
      cases h
      exact ⟨[], tl', rfl, hc2, by simp⟩
    · rw [if_neg hc] at h
      obtain ⟨pre, tl, hl, hq, hj⟩ := ih (i + 1) j h
      exact ⟨c :: pre, tl, by rw [hl]; rfl, hq, by simp [List.length_cons]; omega⟩

theorem takeWhile_append_all {q : Char → Bool} :
    ∀ {a : List Char} (b : List Char), (∀ c ∈ a, q c = true) →
      (a ++ b).takeWhile q = a ++ b.takeWhile q := by
  intro a
  induction a with
  | nil => intro b _; rfl
  | cons c a' ih =>
    intro b ha
    rw [List.cons_append, List.takeWhile_cons, if_pos (ha c (List.mem_cons_self c a')),
      ih b (fun d hd => ha d (List.mem_cons_of_mem c hd))]
    rfl

theorem dropWhile_append_all {q : Char → Bool} :
    ∀ {a : List Char} (b : List Char), (∀ c ∈ a, q c = true) →
      (a ++ b).dropWhile q = b.dropWhile q := by
  intro a
  induction a with
  | nil => intro b _; rfl
  | cons c a' ih =>
    intro b ha
    rw [List.cons_append, List.dropWhile_cons, if_pos (ha c (List.mem_cons_self c a'))]
    exact ih b (fun d hd => ha d (List.mem_cons_of_mem c hd))

theorem lineQualifies_split (tl : List Char) (h : lineQualifies tl = true) :
    ∃ w rest, tl = w ++ rest ∧ (∀ c ∈ w, jsWs c = true) ∧
      (startsWithL (lowerL "Graph".data) (lowerL rest) = true ∨
       startsWithL (lowerL "Additional detail".data) (lowerL rest) = true) := by
  have hsplit1 : tl = tl.takeWhile (fun c => c != '\n') ++ tl.dropWhile (fun c => c != '\n') :=
    (List.takeWhile_append_dropWhile _ _).symm
  have hsplit2 : tl.takeWhile (fun c => c != '\n') =
      (tl.takeWhile (fun c => c != '\n')).takeWhile jsWs ++
        (tl.takeWhile (fun c => c != '\n')).dropWhile jsWs :=
    (List.takeWhile_append_dropWhile _ _).symm
  refine ⟨(tl.takeWhile (fun c => c != '\n')).takeWhile jsWs,
    (tl.takeWhile (fun c => c != '\n')).dropWhile jsWs ++ tl.dropWhile (fun c => c != '\n'),
    ?_, ?_, ?_⟩
  · conv_lhs => rw [hsplit1]
    conv_lhs => rw [hsplit2]
    rw [List.append_assoc]
  · intro c hc
    exact List.mem_takeWhile_imp hc
  · unfold lineQualifies at h
    rcases Bool.or_eq_true_iff.mp h with h' | h'
    · left
      obtain ⟨m, t, hr, hlm⟩ := startsWithL_decomp h'
      rw [hr, List.append_assoc]
      exact startsWithL_of_decomp hlm
    · right
      obtain ⟨m, t, hr, hlm⟩ := startsWithL_decomp h'
      rw [hr, List.append_assoc]
      exact startsWithL_of_decomp hlm

theorem spec_some_implies_cut (raw : List Char) (j : Nat) (h : specMarker raw = some j) :
    ∃ i st, runPat cutoffRE raw = some (i, st) ∧ i < j := by
  obtain ⟨pre, tl, hraw, hq, hj⟩ := specMarkerGo_decomp raw 0 j h
  obtain ⟨w, rest, htl, hw, hm⟩ := lineQualifies_split tl hq
  have hmt : (mtch cutoffRE ⟨'\n' :: tl, prevOf pre none, none⟩ some).isSome := by
    rw [htl]
    exact cutoff_mtch_isSome w rest _ hw hm
  obtain ⟨i, st, hscan, hle⟩ := scanFrom_isSome_le cutoffRE pre ('\n' :: tl) none 0 hmt
  rw [← hraw] at hscan
  exact ⟨i, st, hscan, by omega⟩

theorem asciiLower_eq_nl {c : Char} (h : asciiLower c = '\n') : c = '\n' := by
  unfold asciiLower at h
  by_cases hc : 'A' ≤ c ∧ c ≤ 'Z'
  · rw [if_pos hc] at h
    exfalso
    have h65 : ('A').toNat ≤ c.toNat := char_le_toNat hc.1
    have h90 : c.toNat ≤ ('Z').toNat := char_le_toNat hc.2
    have ha : ('A').toNat = 65 := rfl
    have hz : ('Z').toNat = 90 := rfl
    have hval : (c.toNat + 32).isValidChar := Or.inl (by omega)
    have h2 := congrArg Char.toNat h
    rw [toNat_ofNat_valid hval] at h2
    have hs : ('\n').toNat = 10 := rfl
    omega
  · rw [if_neg hc] at h
    exact h

theorem jsWs_lower_self {c : Char} (h : jsWs c = true) : asciiLower c = c := by
  unfold jsWs at h
  simp only [Bool.or_eq_true, beq_iff_eq] at h
  rcases h with ((((((((h | h) | h) | h) | h) | h) | h) | h) | h) | h <;> subst h <;> rfl

theorem some_orElse_eq {α : Type} (a : α) (b : Option α) : (some a <|> b) = some a := rfl

theorem none_orElse_eq {α : Type} (b : Option α) : ((none : Option α) <|> b) = b := rfl

theorem starGRun_sound (p : Char → Bool) (k : MSt → Option MSt) :
    ∀ (l : List Char) (prev : Option Char) (cap : Option (List Char)) (res : MSt),
      starGRun p k l prev cap = some res →
      ∃ w t pv, l = w ++ t ∧ (∀ c ∈ w, p c = true) ∧ k ⟨t, pv, cap⟩ = some res := by
  intro l
  induction l with
  | nil =>
    intro prev cap res h
    refine ⟨[], [], prev, rfl, ?_, h⟩
    intro c hc
    cases hc
  | cons c tl ih =>
    intro prev cap res h
    rw [starGRun] at h
    by_cases hc : p c
    · rw [if_pos hc] at h
      cases h1 : starGRun p k tl (some c) cap with
      | some res1 =>
        rw [h1, some_orElse_eq] at h
        injection h with h2
        subst h2
        obtain ⟨w, t, pv, hl, hw, hk⟩ := ih (some c) cap res1 h1
        refine ⟨c :: w, t, pv, by rw [hl]; rfl, ?_, hk⟩
        intro d hd
        rcases List.mem_cons.mp hd with hd | hd
        · subst hd; exact hc
        · exact hw d hd
      | none =>
        rw [h1, none_orElse_eq] at h
        refine ⟨[], c :: tl, prev, rfl, ?_, h⟩
        intro d hd
        cases hd
    · rw [if_neg hc] at h
      refine ⟨[], c :: tl, prev, rfl, ?_, h⟩
      intro d hd
      cases hd

theorem mtch_litStr_sound (kw : List Char) (k : MSt → Option MSt) :
    ∀ (st : MSt) (res : MSt), mtch (litStr true kw) st k = some res →
      ∃ m t pv, st.rest = m ++ t ∧ lowerL m = lowerL kw ∧ k ⟨t, pv, st.cap⟩ = some res := by
  induction kw with
  | nil =>
    intro st res h
    exact ⟨[], st.rest, st.prev, rfl, rfl, h⟩
  | cons c ks ih =>
    intro st res h
    rw [show litStr true (c :: ks) = .cat (.lit true c) (litStr true ks) from rfl] at h
    simp only [mtch] at h
    cases hrest : st.rest with
    | nil => rw [hrest] at h; cases h
    | cons d tl =>
      rw [hrest] at h
      dsimp only at h
      by_cases hcd : ciEq true c d = true
      · rw [if_pos hcd] at h
        obtain ⟨m, t, pv, hr2, hlm, hk⟩ := ih ⟨tl, some d, st.cap⟩ res h
        have hcd' : asciiLower c = asciiLower d := by
          unfold ciEq at hcd
          rw [if_pos rfl] at hcd
          exact (beq_iff_eq.mp hcd)
        refine ⟨d :: m, t, pv, ?_, ?_, hk⟩
        · exact congrArg (fun x => d :: x) hr2
        · simp only [lowerL, List.map_cons, List.cons.injEq]
          exact ⟨hcd'.symm, hlm⟩
      · rw [if_neg hcd] at h
        cases h

theorem cutoff_mtch_sound (s : List Char) (pv0 : Option Char) (res : MSt)
    (h : mtch cutoffRE ⟨s, pv0, none⟩ some = some res) :
    ∃ w rest, s = '\n' :: (w ++ rest) ∧ (∀ c ∈ w, jsWs c = true) ∧
      (startsWithL (lowerL "Graph".data) (lowerL rest) = true ∨
       startsWithL (lowerL "Additional detail".data) (lowerL rest) = true) := by
  cases s with
  | nil => cases h
  | cons d tl =>
    have step1 : mtch cutoffRE ⟨d :: tl, pv0, none⟩ some =
        if ciEq true '\n' d = true then
          starGRun jsWs
            (fun st' => mtch
              (.cat (.grp (.alt (litStr true "Graph".data)
                (litStr true "Additional detail".data))) .eps) st' some)
            tl (some d) none
        else none := rfl
    rw [step1] at h
    by_cases hd : ciEq true '\n' d = true
    · rw [if_pos hd] at h
      have hd' : d = '\n' := by
        unfold ciEq at hd
        rw [if_pos rfl] at hd
        exact asciiLower_eq_nl (beq_iff_eq.mp hd).symm
      subst hd'
      obtain ⟨w, t, pv, htl, hw, hk⟩ := starGRun_sound jsWs _ tl (some '\n') none res h
      have step2 : mtch
          (.cat (.grp (.alt (litStr true "Graph".data)
            (litStr true "Additional detail".data))) .eps) (⟨t, pv, none⟩ : MSt) some =
          ((mtch (litStr true "Graph".data) ⟨t, pv, none⟩
            (fun st2 => some ⟨st2.rest, st2.prev,
              some (t.take (t.length - st2.rest.length))⟩)) <|>
          (mtch (litStr true "Additional detail".data) ⟨t, pv, none⟩
            (fun st2 => some ⟨st2.rest, st2.prev,
              some (t.take (t.length - st2.rest.length))⟩))) := rfl
      rw [step2] at hk
      cases hka : mtch (litStr true "Graph".data) ⟨t, pv, none⟩
          (fun st2 => some ⟨st2.rest, st2.prev,
            some (t.take (t.length - st2.rest.length))⟩) with
      | some r1 =>
        obtain ⟨m, t', pv', hts, hlm, _⟩ :=
          mtch_litStr_sound "Graph".data _ ⟨t, pv, none⟩ r1 hka
        refine ⟨w, t, by rw [htl], hw, Or.inl ?_⟩
        have hts' : t = m ++ t' := hts
        rw [hts']
        exact startsWithL_of_decomp hlm
      | none =>
        rw [hka, none_orElse_eq] at hk
        obtain ⟨m, t', pv', hts, hlm, _⟩ :=
          mtch_litStr_sound "Additional detail".data _ ⟨t, pv, none⟩ res hk
        refine ⟨w, t, by rw [htl], hw, Or.inr ?_⟩
        have hts' : t = m ++ t' := hts
        rw [hts']
        exact startsWithL_of_decomp hlm
    · rw [if_neg hd] at h
      cases h

theorem scanFrom_sound (r : RE) :
    ∀ (l : List Char) (prev : Option Char) (i j : Nat) (st : MSt),
      scanFrom r l prev i = some (j, st) →
      ∃ suf pv, (suf <:+ l) ∧ mtch r ⟨suf, pv, none⟩ some = some st := by
  intro l
  induction l with
  | nil =>
    intro prev i j st h
    simp only [scanFrom] at h
    cases hm : mtch r ⟨[], prev, none⟩ some with
    | some res =>
      rw [hm] at h
      injection h with h2
      injection h2 with h3 h4
      subst h4
      exact ⟨[], prev, List.nil_suffix, hm⟩
    | none => rw [hm] at h; cases h
  | cons c tl ih =>
    intro prev i j st h
    simp only [scanFrom] at h
    cases hm : mtch r ⟨c :: tl, prev, none⟩ some with
    | some res =>
      rw [hm] at h
      injection h with h2
      injection h2 with h3 h4
      subst h4
      exact ⟨c :: tl, prev, List.suffix_refl _, hm⟩
    | none =>
      rw [hm] at h
      obtain ⟨suf, pv, hsuf, hmt⟩ := ih (some c) (i + 1) j st h
      exact ⟨suf, pv, hsuf.trans (List.suffix_cons c tl), hmt⟩

theorem startsWithL_takeWhile {q : Char → Bool} :
    ∀ (n : List Char) (h : List Char),
      startsWithL (lowerL n) (lowerL h) = true →
      (∀ c ∈ n, ∀ d, asciiLower d = asciiLower c → q d = true) →
      startsWithL (lowerL n) (lowerL (h.takeWhile q)) = true := by
  intro n
  induction n with
  | nil => intro h _ _; rfl
  | cons c ks ih =>
    intro h hs hn
    cases h with
    | nil => simp [lowerL, startsWithL] at hs
    | cons d hs' =>
      simp only [lowerL, List.map_cons, startsWithL, Bool.and_eq_true, beq_iff_eq] at hs
      obtain ⟨h1, h2⟩ := hs
      have hq : q d = true := hn c (List.mem_cons_self c ks) d h1.symm
      rw [List.takeWhile_cons, if_pos hq]
      simp only [lowerL, List.map_cons, startsWithL, Bool.and_eq_true, beq_iff_eq]
      refine ⟨h1, ?_⟩
      exact ih hs' h2 (fun e he d' hd' => hn e (List.mem_cons_of_mem c he) d' hd')

theorem marker_head_graph {rest : List Char}
    (h : startsWithL (lowerL "Graph".data) (lowerL rest) = true) :
    ∃ d rest', rest = d :: rest' ∧ jsWs d = false ∧ d ≠ '\n' := by
  cases rest with
  | nil => simp [lowerL, startsWithL] at h
  | cons d rest' =>
    simp only [lowerL, List.map_cons, startsWithL, Bool.and_eq_true, beq_iff_eq] at h
    have hg : asciiLower d = 'g' := by
      have : asciiLower 'G' = 'g' := rfl
      rw [← this]
      exact h.1.symm
    refine ⟨d, rest', rfl, ?_, ?_⟩
    · by_contra hws
      have hws' : jsWs d = true := by
        cases hjw : jsWs d
        · exact absurd hjw hws
        · rfl
      have := jsWs_lower_self hws'
      rw [this] at hg
      subst hg
      exact absurd hws' (by decide)
    · intro hd
      subst hd
      exact absurd hg (by decide)

theorem marker_head_additional {rest : List Char}
    (h : startsWithL (lowerL "Additional detail".data) (lowerL rest) = true) :
    ∃ d rest', rest = d :: rest' ∧ jsWs d = false ∧ d ≠ '\n' := by
  cases rest with
  | nil => simp [lowerL, startsWithL] at h
  | cons d rest' =>
    simp only [lowerL, List.map_cons, startsWithL, Bool.and_eq_true, beq_iff_eq] at h
    have hg : asciiLower d = 'a' := by
      have : asciiLower 'A' = 'a' := rfl
      rw [← this]
      exact h.1.symm
    refine ⟨d, rest', rfl, ?_, ?_⟩
    · by_contra hws
      have hws' : jsWs d = true := by
        cases hjw : jsWs d
        · exact absurd hjw hws
        · rfl
      have := jsWs_lower_self hws'
      rw [this] at hg
      subst hg
      exact absurd hws' (by decide)
    · intro hd
      subst hd
      exact absurd hg (by decide)

theorem exists_qualifying :
    ∀ (n : Nat) (w rest : List Char), w.length ≤ n → (∀ c ∈ w, jsWs c = true) →
      (startsWithL (lowerL "Graph".data) (lowerL rest) = true ∨
       startsWithL (lowerL "Additional detail".data) (lowerL rest) = true) →
      ∃ tl, ('\n' :: tl) <:+ ('\n' :: (w ++ rest)) ∧ lineQualifies tl = true := by
  intro n
  induction n with
  | zero =>
    intro w rest hlen hw hm
    have hwnil : w = [] := List.eq_nil_of_length_eq_zero (Nat.le_zero.mp hlen)
    subst hwnil
    refine ⟨rest, List.suffix_refl _, ?_⟩
    obtain ⟨d, rest', hr, hdws, hdnl⟩ :=
      (by rcases hm with hm | hm
          · exact marker_head_graph hm
          · exact marker_head_additional hm :
        ∃ d rest', rest = d :: rest' ∧ jsWs d = false ∧ d ≠ '\n')
    unfold lineQualifies
    have htw : rest.takeWhile (fun c => c != '\n') = d :: rest'.takeWhile (fun c => c != '\n') := by
      rw [hr, List.takeWhile_cons, if_pos (by simpa using hdnl)]
    have hdw : (rest.takeWhile (fun c => c != '\n')).dropWhile jsWs =
        rest.takeWhile (fun c => c != '\n') := by
      rw [htw, List.dropWhile_cons, if_neg (by simp [hdws])]
    rw [hdw]
    have hmarker1 : ∀ c ∈ "Graph".data, asciiLower c ≠ '\n' := by decide
    have hmarker2 : ∀ c ∈ "Additional detail".data, asciiLower c ≠ '\n' := by decide
    rcases hm with hm | hm
    · apply Bool.or_eq_true_iff.mpr
      left
      apply startsWithL_takeWhile _ rest hm
      intro c hc d' hd'
      by_contra hne
      have hd'nl : d' = '\n' := by simpa using hne
      subst hd'nl
      exact hmarker1 c hc (by rw [← hd']; rfl)
    · apply Bool.or_eq_true_iff.mpr
      right
      apply startsWithL_takeWhile _ rest hm
      intro c hc d' hd'
      by_contra hne
      have hd'nl : d' = '\n' := by simpa using hne
      subst hd'nl
      exact hmarker2 c hc (by rw [← hd']; rfl)
  | succ n ih =>
    intro w rest hlen hw hm
    by_cases hnl : '\n' ∈ w
    · obtain ⟨w1, w2, hw12⟩ := List.append_of_mem hnl
      have hw2len : w2.length ≤ n := by
        have := congrArg List.length hw12
        simp only [List.length_append, List.length_cons] at this
        omega
      have hw2ws : ∀ c ∈ w2, jsWs c = true := by
        intro c hc
        exact hw c (by rw [hw12]; exact List.mem_append_right _ (List.mem_cons_of_mem _ hc))
      obtain ⟨tl, hsuf, hq⟩ := ih w2 rest hw2len hw2ws hm
      refine ⟨tl, ?_, hq⟩
      have hshape : '\n' :: (w ++ rest) = ('\n' :: w1) ++ ('\n' :: (w2 ++ rest)) := by
        rw [hw12]
        simp
      rw [hshape]
      exact hsuf.trans (List.suffix_append _ _)
    · -- no newline inside w: the marker's own line qualifies
      refine ⟨w ++ rest, List.suffix_refl _, ?_⟩
      obtain ⟨d, rest', hr, hdws, hdnl⟩ :=
        (by rcases hm with hm | hm
            · exact marker_head_graph hm
            · exact marker_head_additional hm :
          ∃ d rest', rest = d :: rest' ∧ jsWs d = false ∧ d ≠ '\n')
      unfold lineQualifies
      have hwq : ∀ c ∈ w, (c != '\n') = true := by
        intro c hc
        simp only [bne_iff_ne, ne_eq]
        intro hcn
        subst hcn
        exact hnl hc
      have htw : (w ++ rest).takeWhile (fun c => c != '\n') =
          w ++ rest.takeWhile (fun c => c != '\n') := takeWhile_append_all _ hwq
      have htw2 : rest.takeWhile (fun c => c != '\n') =
          d :: rest'.takeWhile (fun c => c != '\n') := by
        rw [hr, List.takeWhile_cons, if_pos (by simpa using hdnl)]
      have hdw : ((w ++ rest).takeWhile (fun c => c != '\n')).dropWhile jsWs =
          rest.takeWhile (fun c => c != '\n') := by
        rw [htw, dropWhile_append_all _ hw, htw2, List.dropWhile_cons,
          if_neg (by simp [hdws])]
      rw [hdw]
      have hmarker1 : ∀ c ∈ "Graph".data, asciiLower c ≠ '\n' := by decide
      have hmarker2 : ∀ c ∈ "Additional detail".data, asciiLower c ≠ '\n' := by decide
      rcases hm with hm | hm
      · apply Bool.or_eq_true_iff.mpr
        left
        apply startsWithL_takeWhile _ rest hm
        intro c hc d' hd'
        by_contra hne
        have hd'nl : d' = '\n' := by simpa using hne
        subst hd'nl
        exact hmarker1 c hc (by rw [← hd']; rfl)
      · apply Bool.or_eq_true_iff.mpr
        right
        apply startsWithL_takeWhile _ rest hm
        intro c hc d' hd'
        by_contra hne
        have hd'nl : d' = '\n' := by simpa using hne
        subst hd'nl
        exact hmarker2 c hc (by rw [← hd']; rfl)

theorem specMarkerGo_ne_none :
    ∀ (raw tl : List Char) (i : Nat),
      ('\n' :: tl) <:+ raw → lineQualifies tl = true → specMarkerGo raw i ≠ none := by
  intro raw
  induction raw with
  | nil =>
    intro tl i hsuf _
    have := List.suffix_nil.mp hsuf
    cases this
  | cons c rtl ih =>
    intro tl i hsuf hq
    rw [specMarkerGo]
    by_cases hcond : (c == '\n' && lineQualifies rtl) = true
    · rw [if_pos hcond]
      simp
    · rw [if_neg hcond]
      rcases List.suffix_cons_iff.mp hsuf with heq | hsuf'
      · injection heq with h1 h2
        subst h1
        subst h2
        exact absurd (by simp [hq]) hcond
      · exact ih tl (i + 1) hsuf' hq

theorem spec_none_implies_noCut (raw : List Char) (h : specMarker raw = none) :
    runPat cutoffRE raw = none := by
  cases hrun : runPat cutoffRE raw with
  | none => rfl
  | some p =>
    exfalso
    obtain ⟨i, st⟩ := p
    have hrun' : scanFrom cutoffRE raw none 0 = some (i, st) := hrun
    obtain ⟨suf, pv, hsuf, hm⟩ := scanFrom_sound cutoffRE raw none 0 i st hrun'
    obtain ⟨w, rest, hshape, hw, hmk⟩ := cutoff_mtch_sound suf pv st hm
    obtain ⟨tl, htl_suf, hq⟩ := exists_qualifying w.length w rest (Nat.le_refl _) hw hmk
    have hsuf2 : ('\n' :: tl) <:+ raw := htl_suf.trans (hshape ▸ hsuf)
    exact specMarkerGo_ne_none raw tl 0 hsuf2 hq h

/-- C3 (amended): the cutoff regex `/\n\s*(Graph|Additional detail)/i`
requires a newline BEFORE the marker, so the rule holds for marker lines
other than the very first line of the text: when some non-initial line
(after optional leading whitespace) begins with `Graph` or
`Additional detail` case-insensitively, the parsed text is a strict prefix
of the text ending before the first such line, so no content at or after
that line can reach the extraction pipeline; when no such non-initial line
exists, the full text is used.  The route's whole 200 response is computed
from that parsed text alone (third conjunct).  A marker on the very first
line is NOT discarded — see the counterexample. -/
theorem C3_cutoff (raw : List Char) :
    (specMarker raw = none → textToParse raw = raw) ∧
    (∀ j, specMarker raw = some j → ∃ i, i < j ∧ textToParse raw = raw.take i) ∧
    (∀ (st : ServerState) (req : FormatRequest) (v : String),
      req.rawText = some (.str v) → v ≠ "" →
      formatReport st req = .ok (formatFromParsed st req (textToParse v.data))) := by
  refine ⟨?_, ?_, ?_⟩
  · intro h
    unfold textToParse
    rw [spec_none_implies_noCut raw h]
  · intro j h
    obtain ⟨i, st, hrun, hij⟩ := spec_some_implies_cut raw j h
    refine ⟨i, hij, ?_⟩
    unfold textToParse
    rw [hrun]
  · intro st req v h1 h2
    unfold formatReport
    rw [h1]
    dsimp only
    rw [if_neg (by simpa using h2)]

/-- C3 counterexample: a cutoff marker on the very FIRST line is not
discarded (the regex needs a preceding newline), so content after that
marker line — here the value `M` of a `Category` label — does appear in
`extractedFields` and `formattedText`, where the claim says nothing at or
after the first marker line may appear. -/
theorem C3_first_line_cex :
    textToParse "Graph stuff\nCategory : M".data = "Graph stuff\nCategory : M".data ∧
    (match formatReport defaultState
        ⟨some (.str "Graph stuff\nCategory : M"), none, emptyFilters, []⟩ with
     | .ok r => jsGet r.extractedFields "category"
     | .err400 _ => none) = some ⟨"Category", "M"⟩ := by
  exact ⟨by rfl, by rfl⟩

/-- Witness for `C3_cutoff`: on `"x\nGraph rest"` the spec marker sits at
index 2 and the parsed text is a prefix that stops before it; and the
response-factorisation conjunct applied at a concrete request. -/
theorem C3_cutoff_witness :
    specMarker "x\nGraph rest".data = some 2 ∧
    (∃ i, i < 2 ∧ textToParse "x\nGraph rest".data = "x\nGraph rest".data.take i) ∧
    formatReport defaultState ⟨some (.str "x\nGraph rest"), none, emptyFilters, []⟩ =
      .ok (formatFromParsed defaultState
        ⟨some (.str "x\nGraph rest"), none, emptyFilters, []⟩
        (textToParse "x\nGraph rest".data)) := by
  refine ⟨by rfl, (C3_cutoff "x\nGraph rest".data).2.1 2 (by rfl), ?_⟩
  exact (C3_cutoff "x\nGraph rest".data).2.2 defaultState _ "x\nGraph rest" rfl (by decide)

/-! ## Extracted values are non-empty after trimming (claim C6) -/

theorem dropWhile_head_not {q : Char → Bool} :
    ∀ {l : List Char} {c : Char} {tl : List Char}, l.dropWhile q = c :: tl → q c = false := by
  intro l
  induction l with
  | nil => intro c tl h; cases h
  | cons d l' ih =>
    intro c tl h
    rw [List.dropWhile_cons] at h
    by_cases hd : q d
    · rw [if_pos hd] at h
      exact ih h
    · rw [if_neg hd] at h
      cases h
      cases hqd : q d
      · rfl
      · exact absurd hqd hd

theorem trim_nonnil_witness {l : List Char} (h : jsTrimL l ≠ []) :
    ∃ c ∈ jsTrimL l, jsWs c = false := by
  unfold jsTrimL at h ⊢
  cases hx : (l.dropWhile jsWs).reverse.dropWhile jsWs with
  | nil => exact absurd (by rw [hx]; rfl) h
  | cons c tl => exact ⟨c, by simp, dropWhile_head_not hx⟩

theorem trim_nonnil_of_witness {l : List Char} (h : ∃ c ∈ l, jsWs c = false) :
    jsTrimL l ≠ [] := by
  obtain ⟨c, hc, hcw⟩ := h
  intro htrim
  unfold jsTrimL at htrim
  have h2 : (l.dropWhile jsWs).reverse.dropWhile jsWs = [] :=
    List.reverse_eq_nil_iff.mp htrim
  have h3 : ∀ d ∈ (l.dropWhile jsWs).reverse, jsWs d = true :=
    List.dropWhile_eq_nil_iff.mp h2
  have h4 : ∀ d ∈ l.dropWhile jsWs, jsWs d = true := by
    intro d hd
    exact h3 d (List.mem_reverse.mpr hd)
  have h5 : ∀ d ∈ l, jsWs d = true := by
    intro d hd
    rcases List.mem_append.mp
      (by rw [List.takeWhile_append_dropWhile]; exact hd :
        d ∈ l.takeWhile jsWs ++ l.dropWhile jsWs) with hd' | hd'
    · exact List.mem_takeWhile_imp hd'
    · exact h4 d hd'
  rw [h5 c hc] at hcw
  cases hcw

theorem blank_mtch_span (l : List Char) (prev : Option Char) (res : MSt)
    (h : mtch blankRE ⟨l, prev, none⟩ some = some res) :
    ∃ w t, l = '\n' :: (w ++ '\n' :: t) ∧ (∀ c ∈ w, jsWs c = true) ∧ res.rest = t := by
  cases l with
  | nil => cases h
  | cons d tl =>
    have step1 : mtch blankRE ⟨d :: tl, prev, none⟩ some =
        if ciEq false '\n' d = true then
          starGRun jsWs
            (fun st' => mtch (.cat (.lit false '\n') .eps) st' some) tl (some d) none
        else none := rfl
    rw [step1] at h
    by_cases hd : ciEq false '\n' d = true
    · rw [if_pos hd] at h
      have hd' : d = '\n' := by
        unfold ciEq at hd
        rw [if_neg (by simp)] at hd
        exact (beq_iff_eq.mp hd).symm
      subst hd'
      obtain ⟨w, t0, pv, htl, hw, hk⟩ := starGRun_sound jsWs _ tl (some '\n') none res h
      cases t0 with
      | nil => cases hk
      | cons e t1 =>
        have step2 : mtch (.cat (.lit false '\n') .eps) (⟨e :: t1, pv, none⟩ : MSt) some =
            if ciEq false '\n' e = true then some ⟨t1, some e, none⟩ else none := rfl
        rw [step2] at hk
        by_cases he : ciEq false '\n' e = true
        · rw [if_pos he] at hk
          have he' : e = '\n' := by
            unfold ciEq at he
            rw [if_neg (by simp)] at he
            exact (beq_iff_eq.mp he).symm
          subst he'
          injection hk with hk2
          refine ⟨w, t1, by rw [htl], hw, ?_⟩
          rw [← hk2]
        · rw [if_neg he] at hk
          cases hk
    · rw [if_neg hd] at h
      cases h

theorem replaceFuel_nonws :
    ∀ (fuel : Nat) (l : List Char) (prev : Option Char),
      (∃ c ∈ l, jsWs c = false) →
      ∃ c ∈ replaceFuel blankRE ['\n'] fuel l prev, jsWs c = false := by
  intro fuel
  induction fuel with
  | zero => intro l prev h; exact h
  | succ f ih =>
    intro l prev h
    cases l with
    | nil =>
      obtain ⟨c, hc, _⟩ := h
      cases hc
    | cons c0 tl =>
      rw [replaceFuel]
      cases hm : mtch blankRE ⟨c0 :: tl, prev, none⟩ some with
      | none =>
        obtain ⟨c, hc, hcw⟩ := h
        rcases List.mem_cons.mp hc with hceq | hc'
        · subst hceq
          exact ⟨c, List.mem_cons_self _ _, hcw⟩
        · obtain ⟨c', hc'', hw'⟩ := ih tl (some c0) ⟨c, hc', hcw⟩
          exact ⟨c', List.mem_cons_of_mem _ hc'', hw'⟩
      | some res =>
        dsimp only
        by_cases hlen : res.rest.length < (c0 :: tl).length
        · rw [if_pos hlen]
          obtain ⟨w, t, hshape, hw, hrest⟩ := blank_mtch_span (c0 :: tl) prev res hm
          obtain ⟨c, hc, hcw⟩ := h
          have hct : c ∈ t := by
            rw [hshape] at hc
            rcases List.mem_cons.mp hc with hceq | hc2
            · subst hceq; exact absurd hcw (by simp [jsWs])
            · rcases List.mem_append.mp hc2 with hcw2 | hc3
              · exact absurd (hw c hcw2) (by simp [hcw])
              · rcases List.mem_cons.mp hc3 with hceq | hc4
                · subst hceq; exact absurd hcw (by simp [jsWs])
                · exact hc4
          obtain ⟨c', hc'', hw'⟩ := ih res.rest res.prev ⟨c, by rw [hrest]; exact hct, hcw⟩
          exact ⟨c', List.mem_append_right _ hc'', hw'⟩
        · rw [if_neg hlen]
          obtain ⟨c, hc, hcw⟩ := h
          rcases List.mem_cons.mp hc with hceq | hc'
          · subst hceq
            exact ⟨c, List.mem_cons_self _ _, hcw⟩
          · obtain ⟨c', hc'', hw'⟩ := ih tl (some c0) ⟨c, hc', hcw⟩
            exact ⟨c', List.mem_cons_of_mem _ hc'', hw'⟩

theorem trimGuard_val {r : RE} {text v : List Char}
    (h : (match runPat r text with
          | some res => let u := jsTrimL (grpStr res); if u ≠ [] then some u else none
          | none => none) = some v) :
    ∃ u, v = jsTrimL u ∧ v ≠ [] := by
  cases hr : runPat r text with
  | none => rw [hr] at h; cases h
  | some res =>
    rw [hr] at h
    dsimp only at h
    by_cases hne : jsTrimL (grpStr res) ≠ []
    · rw [if_pos hne] at h
      injection h with h2
      exact ⟨grpStr res, h2.symm, h2 ▸ hne⟩
    · rw [if_neg hne] at h
      cases h

theorem strategy1_val {kw text v : List Char} (h : strategy1 kw text = some v) :
    ∃ u, v = jsTrimL u ∧ v ≠ [] := trimGuard_val h

theorem strategy2_val {kw text v : List Char} (h : strategy2 kw text = some v) :
    ∃ u, v = jsTrimL u ∧ v ≠ [] := trimGuard_val h

theorem strategy3_val {kw text v : List Char} (h : strategy3 kw text = some v) :
    ∃ u, v = jsTrimL u ∧ v ≠ [] := trimGuard_val h

theorem strategy4_val {kw text v : List Char} (h : strategy4 kw text = some v) :
    ∃ u, v = jsTrimL u ∧ v ≠ [] := trimGuard_val h

theorem strategy5_val {kw text v : List Char} (h : strategy5 kw text = some v) :
    ∃ u, v = jsTrimL u ∧ v ≠ [] := trimGuard_val h

theorem strategy6_val {kw text v : List Char} (h : strategy6 kw text = some v) :
    ∃ u, v = jsTrimL u ∧ v ≠ [] := trimGuard_val h

theorem strategy7_val {kw text v : List Char} (h : strategy7 kw text = some v) :
    ∃ u, v = jsTrimL u := by
  unfold strategy7 at h
  cases hr : runPat (pat7 kw) text with
  | none => rw [hr] at h; cases h
  | some res =>
    rw [hr] at h
    dsimp only at h
    by_cases hm1 : grpStr res ≠ []
    · rw [if_pos hm1] at h
      cases hr2 : runPat genericRE (grpStr res) with
      | none => rw [hr2] at h; cases h
      | some res2 =>
        rw [hr2] at h
        dsimp only at h
        by_cases hv1 : grpStr res2 ≠ []
        · rw [if_pos hv1] at h
          injection h with h2
          exact ⟨grpStr res2, h2.symm⟩
        · rw [if_neg hv1] at h
          cases h
    · rw [if_neg hm1] at h
      cases h

theorem strategy8_val {kw text v : List Char} (h : strategy8 kw text = some v) :
    ∃ u, v = collapseBlank (jsTrimL u) ∧ jsTrimL u ≠ [] := by
  unfold strategy8 at h
  cases hr : runPat (pat8 kw) text with
  | none => rw [hr] at h; cases h
  | some res =>
    rw [hr] at h
    dsimp only at h
    by_cases hne : jsTrimL (grpStr res) ≠ []
    · rw [if_pos hne] at h
      injection h with h2
      exact ⟨grpStr res, h2.symm, hne⟩
    · rw [if_neg hne] at h
      cases h

theorem tryPatterns_value {text kw v : List Char}
    (h : tryPatterns text kw = some v) (hne : v ≠ []) :
    ∃ c ∈ v, jsWs c = false := by
  have fromTrim : ∀ {u : List Char}, v = jsTrimL u → ∃ c ∈ v, jsWs c = false := by
    intro u hu
    rw [hu]
    exact trim_nonnil_witness (hu ▸ hne)
  unfold tryPatterns at h
  cases h1 : strategy1 kw text with
  | some v1 =>
    rw [h1] at h; injection h with h2; subst h2
    obtain ⟨u, hu, _⟩ := strategy1_val h1
    exact fromTrim hu
  | none =>
  rw [h1] at h
  cases h2 : strategy2 kw text with
  | some v2 =>
    rw [h2] at h; injection h with h3; subst h3
    obtain ⟨u, hu, _⟩ := strategy2_val h2
    exact fromTrim hu
  | none =>
  rw [h2] at h
  cases h3 : strategy3 kw text with
  | some v3 =>
    rw [h3] at h; injection h with h4; subst h4
    obtain ⟨u, hu, _⟩ := strategy3_val h3
    exact fromTrim hu
  | none =>
  rw [h3] at h
  cases h4 : strategy4 kw text with
  | some v4 =>
    rw [h4] at h; injection h with h5; subst h5
    obtain ⟨u, hu, _⟩ := strategy4_val h4
    exact fromTrim hu
  | none =>
  rw [h4] at h
  cases h5 : strategy5 kw text with
  | some v5 =>
    rw [h5] at h; injection h with h6; subst h6
    obtain ⟨u, hu, _⟩ := strategy5_val h5
    exact fromTrim hu
  | none =>
  rw [h5] at h
  cases h6 : strategy6 kw text with
  | some v6 =>
    rw [h6] at h; injection h with h7; subst h7
    obtain ⟨u, hu, _⟩ := strategy6_val h6
    exact fromTrim hu
  | none =>
  rw [h6] at h
  cases h7 : strategy7 kw text with
  | some v7 =>
    rw [h7] at h; injection h with h8; subst h8
    obtain ⟨u, hu⟩ := strategy7_val h7
    exact fromTrim hu
  | none =>
  rw [h7] at h
  obtain ⟨u, hu, hune⟩ := strategy8_val h
  obtain ⟨c, hc, hcw⟩ := trim_nonnil_witness hune
  rw [hu]
  exact replaceFuel_nonws _ (jsTrimL u) none ⟨c, hc, hcw⟩

theorem extractLoop_mem {text : List Char} :
    ∀ {kws : List (List Char)} {v : List Char}, extractLoop text kws = some v →
      ∃ kw ∈ kws, tryPatterns text kw = some v := by
  intro kws
  induction kws with
  | nil => intro v h; cases h
  | cons kw rest ih =>
    intro v h
    rw [extractLoop] at h
    cases h1 : tryPatterns text kw with
    | some v1 =>
      rw [h1] at h
      injection h with h2
      subst h2
      exact ⟨kw, List.mem_cons_self _ _, h1⟩
    | none =>
      rw [h1] at h
      obtain ⟨kw', hkw', h'⟩ := ih h
      exact ⟨kw', List.mem_cons_of_mem _ hkw', h'⟩

theorem insertPri_mem {x y : (String × LabelVal) × Int} :
    ∀ {l : List ((String × LabelVal) × Int)}, x ∈ insertPri y l → x = y ∨ x ∈ l := by
  intro l
  induction l with
  | nil =>
    intro h
    left
    exact List.mem_singleton.mp h
  | cons z zs ih =>
    intro h
    rw [insertPri] at h
    by_cases hz : z.2 ≤ y.2
    · rw [if_pos hz] at h
      rcases List.mem_cons.mp h with h | h
      · right; exact h ▸ List.mem_cons_self _ _
      · rcases ih h with h | h
        · left; exact h
        · right; exact List.mem_cons_of_mem _ h
    · rw [if_neg hz] at h
      rcases List.mem_cons.mp h with h | h
      · left; exact h
      · right; exact h

theorem foldl_insertPri_mem {x : (String × LabelVal) × Int} :
    ∀ {l acc : List ((String × LabelVal) × Int)},
      x ∈ List.foldl (fun acc y => insertPri y acc) acc l → x ∈ acc ∨ x ∈ l := by
  intro l
  induction l with
  | nil => intro acc h; left; exact h
  | cons y ys ih =>
    intro acc h
    rw [List.foldl_cons] at h
    rcases ih h with h | h
    · rcases insertPri_mem h with h | h
      · right; exact h ▸ List.mem_cons_self _ _
      · left; exact h
    · right; exact List.mem_cons_of_mem _ h

theorem sortPri_subset {x : (String × LabelVal) × Int}
    {l : List ((String × LabelVal) × Int)} (h : x ∈ sortPri l) : x ∈ l := by
  rcases foldl_insertPri_mem h with h | h
  · cases h
  · exact h

theorem capStage_subset (g : List (String × FieldDef)) (o : Option Int)
    (l : List (String × LabelVal)) : ∀ e ∈ capStage g o l, e ∈ l := by
  intro e he
  cases o with
  | none => exact he
  | some n =>
    rw [capStage] at he
    by_cases hn : n ≠ 0
    · rw [if_pos hn] at he
      obtain ⟨pair, hpair, hfst⟩ := List.mem_map.mp he
      have hp2 : pair ∈ sortPri (l.map (fun e => (e, priOf g e.1))) := by
        unfold jsSlice at hpair
        by_cases hneg : n < 0
        · rw [if_pos hneg] at hpair
          exact List.take_subset _ _ hpair
        · rw [if_neg hneg] at hpair
          exact List.take_subset _ _ hpair
      have hp3 := sortPri_subset hp2
      obtain ⟨e0, he0, hpe⟩ := List.mem_map.mp hp3
      rw [← hfst, ← hpe]
      exact he0
    · rw [if_neg hn] at he
      exact he

theorem allowStage_subset (o : Option (List String)) (l : List (String × LabelVal)) :
    ∀ e ∈ allowStage o l, e ∈ l := by
  intro e he
  cases o with
  | none => exact he
  | some ks => exact (List.mem_filter.mp he).1

theorem denyStage_subset (o : Option (List String)) (l : List (String × LabelVal)) :
    ∀ e ∈ denyStage o l, e ∈ l := by
  intro e he
  cases o with
  | none => exact he
  | some ks => exact (List.mem_filter.mp he).1

theorem kwStage_subset (o : Option (List String)) (l : List (String × LabelVal)) :
    ∀ e ∈ kwStage o l, e ∈ l := by
  intro e he
  cases o with
  | none => exact he
  | some ks => exact (List.mem_filter.mp he).1

theorem applyFieldFilters_subset (l : List (String × LabelVal)) (f : FilterSpec)
    (g : List (String × FieldDef)) : ∀ e ∈ applyFieldFilters l f g, e ∈ l := by
  intro e he
  rw [applyFieldFilters_stages] at he
  exact allowStage_subset _ _ _
    (denyStage_subset _ _ _
      (kwStage_subset _ _ _
        (capStage_subset _ _ _ _ he)))

theorem formatFromParsed_fields_mem {st : ServerState} {req : FormatRequest}
    {parsed : List Char} {e : String × LabelVal}
    (he : e ∈ (formatFromParsed st req parsed).extractedFields) :
    ∃ (key : String) (cfg : FieldDef) (vv : List Char),
      e = (key, ⟨cfg.outputLabel, String.mk vv⟩) ∧
      extractFieldValue parsed cfg = some vv ∧ vv ≠ [] := by
  have hfields : (formatFromParsed st req parsed).extractedFields =
      applyFieldFilters ((match req.customFields with
        | some cf => assign st.fieldConfig cf
        | none => st.fieldConfig).filterMap (fun (fe : String × FieldDef) =>
          if fe.2.sectionTag == "general" && fe.2.enabled != some false then
            match extractFieldValue parsed fe.2 with
            | some v =>
              if v ≠ [] then some (fe.1, (⟨fe.2.outputLabel, String.mk v⟩ : LabelVal)) else none
            | none => none
          else none)) req.fieldFilters st.fieldConfig := rfl
  rw [hfields] at he
  have he0 := applyFieldFilters_subset _ req.fieldFilters st.fieldConfig e he
  obtain ⟨entry, _, hf⟩ := List.mem_filterMap.mp he0
  have hf' : (if entry.2.sectionTag == "general" && entry.2.enabled != some false then
      match extractFieldValue parsed entry.2 with
      | some v =>
        if v ≠ [] then some (entry.1, (⟨entry.2.outputLabel, String.mk v⟩ : LabelVal)) else none
      | none => none
    else none) = some e := hf
  by_cases hg : (entry.2.sectionTag == "general" && entry.2.enabled != some false) = true
  · rw [if_pos hg] at hf'
    cases hev : extractFieldValue parsed entry.2 with
    | none => rw [hev] at hf'; cases hf'
    | some vv =>
      rw [hev] at hf'
      dsimp only at hf'
      by_cases hvv : vv ≠ []
      · rw [if_pos hvv] at hf'
        injection hf' with hf2
        exact ⟨entry.1, entry.2, vv, hf2.symm, hev, hvv⟩
      · rw [if_neg hvv] at hf'
        cases hf'
  · rw [if_neg hg] at hf'
    cases hf' 

/-- C6: every entry of the `extractedFields` map of a 200 response has a
value that is non-empty and still non-empty after trimming: a field whose
extraction failed, or whose matched value is empty (the route's `if (value)`
guard also drops the empty string strategy 7 can produce), is simply absent
from the map; and since the composer renders general-section lines only from
entries of this map, the rendered section never contains an empty-valued
field. -/
theorem C6_values_nonempty (st : ServerState) (req : FormatRequest) (r : FormatOk)
    (h : formatReport st req = .ok r) :
    ∀ e ∈ r.extractedFields, e.2.value ≠ "" ∧ jsTrimL e.2.value.data ≠ [] := by
  unfold formatReport at h
  cases hraw : req.rawText with
  | none => rw [hraw] at h; cases h
  | some jv =>
    cases jv with
    | nonString => rw [hraw] at h; cases h
    | str v =>
      rw [hraw] at h
      dsimp only at h
      by_cases hv : (v == "") = true
      · rw [if_pos hv] at h; cases h
      · rw [if_neg hv] at h
        injection h with h2
        subst h2
        intro e he
        obtain ⟨key, cfg, vv, hev, hex, hvv⟩ := formatFromParsed_fields_mem he
        have hval : e.2.value = String.mk vv := by rw [hev]
        constructor
        · rw [hval]
          intro hemp
          apply hvv
          have := congrArg String.data hemp
          simpa using this
        · rw [hval]
          have hdata : (String.mk vv).data = vv := rfl
          rw [hdata]
          have hloop : extractLoop (textToParse v.data) (cfg.keywords.map String.data) =
              some vv := hex
          obtain ⟨kw, _, htp⟩ := extractLoop_mem hloop
          exact trim_nonnil_of_witness (tryPatterns_value htp hvv)

/-- Witness for `C6_values_nonempty`: the single extracted field of a small
concrete request has a non-empty, trimmed-non-empty value. -/
theorem C6_values_nonempty_witness :
    ((⟨"Category", "Malware"⟩ : LabelVal)).value ≠ "" ∧
    jsTrimL ((⟨"Category", "Malware"⟩ : LabelVal)).value.data ≠ [] := by
  have happ := C6_values_nonempty defaultState
    ⟨some (.str "Category : Malware"), none, emptyFilters, []⟩
    (formatFromParsed defaultState
      ⟨some (.str "Category : Malware"), none, emptyFilters, []⟩
      (textToParse "Category : Malware".data)) rfl
  exact happ ("category", ⟨"Category", "Malware"⟩) (by decide)
